import Mathlib

/-!
HeapRegionSeq: the G1 region index.

A shallow embedding of `hotspot/src/share/vm/gc_implementation/g1/heapRegionSeq.cpp`,
and of the function `compare_versions` of `jdk/make/tools/freetypecheck/freetypecheck.c`.

Conventions of the embedding.

* `uint` values are natural numbers; where the C++ arithmetic can wrap, the
  operation is written with an explicit `% 2 ^ 32` (`u32`), and `size_t`
  arithmetic with `% 2 ^ 64` (`usize`).
* Addresses (`HeapWord*`) are natural numbers counted in bytes.
* The table `_regions` is a list of optional handles, `none` being `NULL`.
* An operation returns `none` when the C++ code would dereference `NULL`, or
  read or write a table slot outside the array: the behaviour is undefined.
* `assert` is compiled out of product builds, so the embedded operations do
  not test the asserted conditions; they appear as hypotheses of theorems.
* Loops are recursive functions on a fuel argument. A loop that runs out of
  fuel yields `none`; every caller passes enough fuel for the loop to finish
  on every state whose table and counters agree.
-/

/-- Truncation to `uint` (32 bits). -/
def u32 (x : Nat) : Nat := x % 2 ^ 32

/-- Truncation to `size_t` (64 bits). -/
def usize (x : Nat) : Nat := x % 2 ^ 64

/-- Modelled from the spec: the "not found" sentinel `G1_NULL_HRS_INDEX`
returned by the contiguous-run finder; its definition `((uint) -1)` lives in
`heapRegion.hpp`. -/
def G1_NULL_HRS_INDEX : Nat := 2 ^ 32 - 1

/-- Modelled from the spec: the region handle `HeapRegion` (declared in
`heapRegion.hpp`), reduced to the observers `heapRegionSeq.cpp` calls:
`hrs_index()`, `bottom()`, `end()`, `orig_end()`, `is_empty()`,
`isHumongous()` and `startsHumongous()`. -/
structure HeapRegion where
  hrs_index : Nat
  bottom : Nat
  end_ : Nat
  orig_end : Nat := end_
  is_empty : Bool := true
  isHumongous : Bool := false
  startsHumongous : Bool := false
  deriving DecidableEq, Repr

/-- Modelled from the spec: `HeapRegion::capacity()`, the byte size of the
region's address range `[bottom, end)`. -/
def HeapRegion.capacity (hr : HeapRegion) : Nat := hr.end_ - hr.bottom

/-- The address range `MemRegion(start, end)`. -/
structure MemRegion where
  start : Nat
  end_ : Nat
  deriving DecidableEq, Repr

/-- Modelled from the spec: the destination container `FreeRegionList`, which
receives activated regions by appending them at its tail. -/
abbrev FreeRegionList := List HeapRegion

/-- Modelled from the spec: `FreeRegionList::add_as_tail`, append preserving
the order of arrival. -/
def FreeRegionList.add_as_tail (list : FreeRegionList) (hr : HeapRegion) : FreeRegionList :=
  list ++ [hr]

/-- The fields of `HeapRegionSeq`. -/
structure HeapRegionSeq where
  _regions : List (Option HeapRegion)
  _heap_bottom : Nat
  _heap_end : Nat
  _region_shift : Nat
  _next_search_index : Nat
  _allocated_length : Nat
  _length : Nat
  _max_length : Nat
  deriving DecidableEq, Repr

/-- The function `compare_versions` of `freetypecheck.c`: 0 when the detected
version `major.minor.patch` is at least the required one, and -1, -2 or -3
when the major, minor or patch number is the first to fall short. `FT_Int`
is a signed integer; the function only compares, so no arithmetic can
overflow. The `printf` calls write to standard output and do not bear on the
value returned. -/
def compare_versions (req_major req_minor req_patch major minor patch : Int) : Int :=
  if major > req_major then 0
  else if major < req_major then -1
  else if minor > req_minor then 0
  else if minor < req_minor then -2
  else if patch ≥ req_patch then 0
  else -3

namespace HeapRegionSeq

/-- Modelled from the spec: the accessor `length()` of `heapRegionSeq.hpp`,
the number of active regions. -/
def length (s : HeapRegionSeq) : Nat := s._length

/-- Modelled from the spec: the accessor `at(index)` of
`heapRegionSeq.inline.hpp`, which reads the table slot `_regions[index]` and
hands out the handle; a null slot or a slot outside the array has no handle
to hand out. -/
def at_ (s : HeapRegionSeq) (index : Nat) : Option HeapRegion :=
  (s._regions[index]?).join

/-- The state of the loop of `find_contiguous_from`: `curr`, `first`,
`num_so_far`. -/
structure FindState where
  curr : Nat
  first : Nat
  num_so_far : Nat
  deriving DecidableEq, Repr

/-- The `while (curr < len && num_so_far < num)` loop of
`find_contiguous_from`. -/
def find_contiguous_loop (s : HeapRegionSeq) (len num : Nat) :
    Nat → FindState → Option FindState
  | 0, st => if st.curr < len ∧ st.num_so_far < num then none else some st
  | fuel + 1, st =>
    if st.curr < len ∧ st.num_so_far < num then
      match s.at_ st.curr with
      | none => none
      | some hr =>
        if hr.is_empty then
          if st.first = G1_NULL_HRS_INDEX then
            find_contiguous_loop s len num fuel
              { curr := u32 (st.curr + 1), first := st.curr, num_so_far := 1 }
          else
            find_contiguous_loop s len num fuel
              { curr := u32 (st.curr + 1), first := st.first,
                num_so_far := u32 (st.num_so_far + 1) }
        else
          find_contiguous_loop s len num fuel
            { curr := u32 (st.curr + 1), first := G1_NULL_HRS_INDEX, num_so_far := 0 }
    else some st

/-- The function `HeapRegionSeq::find_contiguous_from(from, num)`. -/
def find_contiguous_from (s : HeapRegionSeq) (from_ num : Nat) : Option Nat :=
  let len := s.length
  match find_contiguous_loop s len num (len - from_)
      { curr := from_, first := G1_NULL_HRS_INDEX, num_so_far := 0 } with
  | none => none
  | some st =>
    if st.num_so_far = num then some st.first else some G1_NULL_HRS_INDEX

/-- Region `i` is present in the table and empty. -/
def emptyAt (s : HeapRegionSeq) (i : Nat) : Bool :=
  match s.at_ i with
  | some hr => hr.is_empty
  | none => false

/-- The regions `r, r+1, ..., r+num-1` lie in the active range and are all
empty. -/
def IsRun (s : HeapRegionSeq) (num r : Nat) : Prop :=
  r + num ≤ s._length ∧ ∀ i, i < num → s.emptyAt (r + i) = true

instance (s : HeapRegionSeq) (num r : Nat) : Decidable (s.IsRun num r) :=
  inferInstanceAs (Decidable (r + num ≤ s._length ∧ ∀ i, i < num → s.emptyAt (r + i) = true))

/-- Every active slot holds a handle. -/
def ActiveHandles (s : HeapRegionSeq) : Prop :=
  ∀ i, i < s._length → (s.at_ i).isSome = true

instance (s : HeapRegionSeq) : Decidable s.ActiveHandles :=
  inferInstanceAs (Decidable (∀ i, i < s._length → (s.at_ i).isSome = true))

/-- The function `HeapRegionSeq::find_contiguous(num)`: the result and the
state after the call. -/
def find_contiguous (s : HeapRegionSeq) (num : Nat) : Option (Nat × HeapRegionSeq) :=
  let start := s._next_search_index
  match s.find_contiguous_from start num with
  | none => none
  | some res0 =>
    match (if res0 = G1_NULL_HRS_INDEX ∧ start > 0 then
        -- Try starting from the beginning.
        s.find_contiguous_from 0 num
      else some res0) with
    | none => none
    | some res =>
      if res ≠ G1_NULL_HRS_INDEX then
        some (res, { s with _next_search_index := u32 (res + num) })
      else some (res, s)

/-- A region handle with the given index, address range and occupancy, not
humongous. -/
def mkRegion (index bottom end_ : Nat) (empty : Bool) : HeapRegion :=
  { hrs_index := index, bottom := bottom, end_ := end_, is_empty := empty }

/-- A sequence of six active regions of 8 bytes each from address 16; regions
1, 2, 4 and 5 are empty, regions 0 and 3 are occupied. -/
def sampleSeq : HeapRegionSeq :=
  { _regions := [some (mkRegion 0 16 24 false), some (mkRegion 1 24 32 true),
      some (mkRegion 2 32 40 true), some (mkRegion 3 40 48 false),
      some (mkRegion 4 48 56 true), some (mkRegion 5 56 64 true), none, none],
    _heap_bottom := 16, _heap_end := 80, _region_shift := 3,
    _next_search_index := 3, _allocated_length := 6, _length := 6, _max_length := 8 }

/-- The loop invariant of `find_contiguous_from`. -/
def FindInv (s : HeapRegionSeq) (from_ num : Nat) (st : FindState) : Prop :=
  from_ ≤ st.curr ∧ st.curr ≤ s._length ∧ st.num_so_far ≤ num ∧
  ((st.first = G1_NULL_HRS_INDEX ∧ st.num_so_far = 0 ∧
      ∀ r, from_ ≤ r → r < st.curr →
        ∃ i, i < num ∧ r + i < st.curr ∧ s.emptyAt (r + i) = false) ∨
   (st.first ≠ G1_NULL_HRS_INDEX ∧ 1 ≤ st.num_so_far ∧ from_ ≤ st.first ∧
      st.first + st.num_so_far = st.curr ∧
      (∀ i, i < st.num_so_far → s.emptyAt (st.first + i) = true) ∧
      ∀ r, from_ ≤ r → r < st.first →
        ∃ i, i < num ∧ r + i < st.curr ∧ s.emptyAt (r + i) = false))

/-- The function `HeapRegionSeq::initialize(bottom, end, max_length)`, spelled
`initialise` here: the counters are zeroed and the table is a fresh array of
`max_length` null slots; `LogOfHRGrainBytes` is the constant
`HeapRegion::LogOfHRGrainBytes`. The biased table pointer `_regions_biased`
is not a field of the embedding; it is `_regions` shifted by
`bottom >> _region_shift` slots. -/
def initialise (LogOfHRGrainBytes bottom end_ max_length : Nat) : HeapRegionSeq :=
  { _length := 0,
    _heap_bottom := bottom,
    _heap_end := end_,
    _region_shift := LogOfHRGrainBytes,
    _next_search_index := 0,
    _allocated_length := 0,
    _max_length := max_length,
    _regions := List.replicate max_length none }

/-- Modelled from the spec: `increment_length(&_length)` of
`heapRegionSeq.hpp`, `*length += 1` on a `uint`. -/
def increment_length (length : Nat) : Nat := u32 (length + 1)

/-- Modelled from the spec: `decrement_length(&_length)` of
`heapRegionSeq.hpp`, `*length -= 1` on a `uint`. -/
def decrement_length (length : Nat) : Nat := u32 (length + (2 ^ 32 - 1))

/-- What `expand_by` leaves behind: the state, the destination list, the
returned range, and the requests `(index, bottom)` made to the region
factory, in order. -/
structure ExpandResult where
  seq : HeapRegionSeq
  list : FreeRegionList
  mr : MemRegion
  factory_calls : List (Nat × Nat)
  deriving DecidableEq, Repr

/-- The `while (next_bottom < new_end)` loop of `expand_by`. The region
factory `G1CollectedHeap::new_heap_region(index, bottom)` is the parameter
`factory`; `none` is its `NULL` on allocation failure. Within one call the
factory is asked for each index at most once, so a function of the request
stands for any factory. -/
def expand_loop (factory : Nat → Nat → Option HeapRegion) (old_end new_end : Nat) :
    Nat → HeapRegionSeq → Nat → FreeRegionList → List (Nat × Nat) → Option ExpandResult
  | 0, s, next_bottom, list, calls =>
    if next_bottom < new_end then none
    else some { seq := s, list := list, mr := ⟨old_end, next_bottom⟩, factory_calls := calls }
  | fuel + 1, s, next_bottom, list, calls =>
    if next_bottom < new_end then
      let index := s.length
      if index = s._allocated_length then
        -- We have to allocate a new HeapRegion.
        match factory index next_bottom with
        | none =>
          -- allocation failed, we bail out and return what we have done so far
          some { seq := s, list := list, mr := ⟨old_end, next_bottom⟩,
                 factory_calls := calls ++ [(index, next_bottom)] }
        | some new_hr =>
          if index < s._regions.length then
            let s1 := { s with _regions := s._regions.set index (some new_hr),
                               _allocated_length := increment_length s._allocated_length }
            let s2 := { s1 with _length := increment_length s1._length }
            match s2.at_ index with
            | none => none
            | some hr =>
              expand_loop factory old_end new_end fuel s2 hr.end_ (list.add_as_tail hr)
                (calls ++ [(index, next_bottom)])
          else none
      else
        let s2 := { s with _length := increment_length s._length }
        match s2.at_ index with
        | none => none
        | some hr =>
          expand_loop factory old_end new_end fuel s2 hr.end_ (list.add_as_tail hr) calls
    else some { seq := s, list := list, mr := ⟨old_end, next_bottom⟩, factory_calls := calls }

/-- The function `HeapRegionSeq::expand_by(old_end, new_end, list)`. Every
turn of the loop needs a table slot at index `length`, so
`_regions.length + 1` turns are enough for it to end. -/
def expand_by (s : HeapRegionSeq) (factory : Nat → Nat → Option HeapRegion)
    (old_end new_end : Nat) (list : FreeRegionList) : Option ExpandResult :=
  expand_loop factory old_end new_end (s._regions.length + 1) s old_end list []

/-- What `shrink_by` leaves behind: the state, the returned range and
`*num_regions_deleted`. -/
structure ShrinkResult where
  seq : HeapRegionSeq
  mr : MemRegion
  num_regions_deleted : Nat
  deriving DecidableEq, Repr

/-- The `while (shrink_bytes > 0)` loop of `shrink_by`; `i` is the next region
to be removed. -/
def shrink_loop (end_ : Nat) :
    Nat → HeapRegionSeq → Nat → Nat → Nat → Nat → Option ShrinkResult
  | 0, s, _, shrink_bytes, num_regions_deleted, last_start =>
    if shrink_bytes > 0 then none
    else some { seq := s, mr := ⟨last_start, end_⟩, num_regions_deleted := num_regions_deleted }
  | fuel + 1, s, i, shrink_bytes, num_regions_deleted, last_start =>
    if shrink_bytes > 0 then
      match s.at_ i with
      | none => none
      | some cur =>
        -- We should leave the humongous regions where they are.
        if cur.isHumongous then
          some { seq := s, mr := ⟨last_start, end_⟩, num_regions_deleted := num_regions_deleted }
        -- We should stop shrinking if we come across a non-empty region.
        else if !cur.is_empty then
          some { seq := s, mr := ⟨last_start, end_⟩, num_regions_deleted := num_regions_deleted }
        else
          shrink_loop end_ fuel { s with _length := decrement_length s._length }
            (u32 (i + (2 ^ 32 - 1))) (usize (shrink_bytes + (2 ^ 64 - usize cur.capacity)))
            (u32 (num_regions_deleted + 1)) cur.bottom
    else some { seq := s, mr := ⟨last_start, end_⟩, num_regions_deleted := num_regions_deleted }

/-- The function `HeapRegionSeq::shrink_by(shrink_bytes, num_regions_deleted)`.
The loop walks `i` down from `length - 1`, so `length + 1` turns are enough
for it to end. -/
def shrink_by (s : HeapRegionSeq) (shrink_bytes : Nat) : Option ShrinkResult :=
  -- Reset this in case it is currently pointing into the regions that we just removed.
  let s0 := { s with _next_search_index := 0 }
  let i := u32 (s0.length + (2 ^ 32 - 1))
  match s0.at_ i with
  | none => none
  | some hr =>
    let end_ := hr.end_
    shrink_loop end_ (s0._length + 1) s0 i shrink_bytes 0 end_

/-- Modelled from the spec: the visitor `HeapRegionClosure` with its own
state `σ`; `doHeapRegion` returns `true` to request a stop, and `incomplete`
notifies the visitor that the iteration ended early. -/
structure HeapRegionClosure (σ : Type) where
  doHeapRegion : σ → HeapRegion → Bool × σ
  incomplete : σ → σ

/-- One `for (uint i = lo; i < hi; i += 1)` loop of `iterate_from`; the
Boolean of the result tells whether the function returned from inside the
loop. -/
def iterate_loop {σ : Type} (s : HeapRegionSeq) (blk : HeapRegionClosure σ) (hi : Nat) :
    Nat → Nat → σ → Option (σ × Bool)
  | 0, i, c => if i < hi then none else some (c, false)
  | fuel + 1, i, c =>
    if i < hi then
      match s.at_ i with
      | none => none
      | some hr =>
        let res := blk.doHeapRegion c hr
        if res.1 then some (blk.incomplete res.2, true)
        else iterate_loop s blk hi fuel (u32 (i + 1)) res.2
    else some (c, false)

/-- The start index `hr_index` of `iterate_from`: 0 for the null start region
`none`, and `hr->hrs_index()` otherwise. -/
def start_index (hr : Option HeapRegion) : Nat :=
  match hr with
  | some h => h.hrs_index
  | none => 0

/-- The function `HeapRegionSeq::iterate_from(hr, blk)`; `hr = none` is the
null start region. The first loop needs `len - hr_index` turns, the second
`hr_index`. -/
def iterate_from {σ : Type} (s : HeapRegionSeq) (hr : Option HeapRegion)
    (blk : HeapRegionClosure σ) (c : σ) : Option σ :=
  let hr_index := start_index hr
  let len := s.length
  match iterate_loop s blk len (len - hr_index) hr_index c with
  | none => none
  | some (c1, true) => some c1
  | some (c1, false) =>
    match iterate_loop s blk hr_index hr_index 0 c1 with
    | none => none
    | some (c2, _) => some c2

/-- The function `HeapRegionSeq::iterate(blk)`. -/
def iterate {σ : Type} (s : HeapRegionSeq) (blk : HeapRegionClosure σ) (c : σ) : Option σ :=
  s.iterate_from none blk c

/-- A region factory that never fails and builds an empty region of 8 bytes
at the requested bottom. -/
def sampleFactory (index bottom : Nat) : Option HeapRegion :=
  some (mkRegion index bottom (bottom + 8) true)

/-- A visitor that records the index of every region it is shown and never
requests a stop. -/
def recordAll : HeapRegionClosure (List Nat) :=
  { doHeapRegion := fun c hr => (false, c ++ [hr.hrs_index]),
    incomplete := fun c => c }

/-- The three bounds that `verify_optional` guarantees first:
`_length <= _allocated_length`, `_allocated_length <= _max_length` and
`_next_search_index <= _length`. -/
def Bounds (s : HeapRegionSeq) : Prop :=
  s._length ≤ s._allocated_length ∧ s._allocated_length ≤ s._max_length ∧
    s._next_search_index ≤ s._length

instance (s : HeapRegionSeq) : Decidable s.Bounds :=
  inferInstanceAs (Decidable (_ ∧ _ ∧ _))

/-- A state whose table and counters agree: the bounds hold, the table has
`_max_length` slots, `_max_length` is a `uint`, and every slot below
`_allocated_length` holds a handle. -/
def Valid (s : HeapRegionSeq) : Prop :=
  s.Bounds ∧ s._regions.length = s._max_length ∧ s._max_length < 2 ^ 32 ∧
    ∀ i, i < s._allocated_length → (s.at_ i).isSome = true

instance (s : HeapRegionSeq) : Decidable s.Valid :=
  inferInstanceAs (Decidable (_ ∧ _ ∧ _ ∧ ∀ i, i < s._allocated_length → _))

/-- One call made by the owner of the sequence. `update` is the owner changing
the state of a committed region between calls (allocating into it, freeing
it, tagging it humongous); the handle stays in its slot. -/
inductive Op where
  | expand (factory : Nat → Nat → Option HeapRegion) (old_end new_end : Nat)
      (list : FreeRegionList)
  | shrink (shrink_bytes : Nat)
  | find (num : Nat)
  | update (index : Nat) (hr : HeapRegion)

/-- The state after one call that meets its precondition: the expansion is
non-empty and stays within the reservation, a run has `num >= 2`, and the
sequence shrinks from a length of at least 2. A call outside its
precondition, or one whose behaviour is undefined, has no state after it. -/
def step (s : HeapRegionSeq) : Op → Option HeapRegionSeq
  | .expand factory old_end new_end list =>
    if old_end < new_end ∧ new_end ≤ s._heap_end then
      (s.expand_by factory old_end new_end list).map (fun r => r.seq)
    else none
  | .shrink shrink_bytes =>
    if 2 ≤ s._length then (s.shrink_by shrink_bytes).map (fun r => r.seq) else none
  | .find num =>
    if 2 ≤ num ∧ num < 2 ^ 32 then (s.find_contiguous num).map (fun p => p.2) else none
  | .update index hr =>
    if index < s._allocated_length then
      some { s with _regions := s._regions.set index (some hr) }
    else none

/-- The state after a finite sequence of calls. -/
def run (s : HeapRegionSeq) : List Op → Option HeapRegionSeq
  | [] => some s
  | op :: ops =>
    match s.step op with
    | none => none
    | some s1 => s1.run ops

/-- Calls on the sample heap of eight regions of 8 bytes from address 16:
grow to five regions, occupy region 1, search for a run of two, shrink by
two regions, grow again by one region. -/
def sampleOps : List Op :=
  [.expand sampleFactory 16 56 [], .update 1 (mkRegion 1 24 32 false), .find 2,
   .shrink 16, .expand sampleFactory 40 48 []]

/-- The state the sample calls end in: four active regions, five committed. -/
def sampleFinal : HeapRegionSeq :=
  { _regions := [some (mkRegion 0 16 24 true), some (mkRegion 1 24 32 false),
      some (mkRegion 2 32 40 true), some (mkRegion 3 40 48 true),
      some (mkRegion 4 48 56 true), none, none, none],
    _heap_bottom := 16, _heap_end := 80, _region_shift := 3,
    _next_search_index := 0, _allocated_length := 5, _length := 4, _max_length := 8 }

/-- Two active, empty, non-humongous regions of 1 MiB each at the bottom of a
reservation of four regions. -/
def twoFree : HeapRegionSeq :=
  { _regions := [some (mkRegion 0 1048576 2097152 true),
      some (mkRegion 1 2097152 3145728 true), none, none],
    _heap_bottom := 1048576, _heap_end := 5242880, _region_shift := 20,
    _next_search_index := 0, _allocated_length := 2, _length := 2, _max_length := 4 }

/-- The committed upper address when `index` regions are active: the address
`expand_by` asserts `next_bottom` to be, `_heap_bottom` for `index = 0` and
`at(index - 1)->end()` otherwise. -/
def last_end (s : HeapRegionSeq) (index : Nat) : Nat :=
  if index = 0 then s._heap_bottom
  else match s.at_ (index - 1) with
    | some hr => hr.end_
    | none => 0

/-- The committed but inactive regions are laid out as `verify_optional`
checks them: each starts where the region before it ends (at `_heap_bottom`
for index 0) and, being empty and not humongous, spans one region size
`GrainBytes`. -/
def InactiveContiguous (s : HeapRegionSeq) (GrainBytes : Nat) : Prop :=
  ∀ i, s._length ≤ i → i < s._allocated_length →
    ∃ hr, s.at_ i = some hr ∧ hr.bottom = s.last_end i ∧ hr.end_ = hr.bottom + GrainBytes

/-- Modelled from the spec: the contract of the region factory
`G1CollectedHeap::new_heap_region(index, bottom)`; a region it returns has
the requested index, starts at the requested bottom and spans one region
size `GrainBytes`. -/
def FactoryBuilds (factory : Nat → Nat → Option HeapRegion) (GrainBytes : Nat) : Prop :=
  ∀ i b hr, factory i b = some hr →
    hr.hrs_index = i ∧ hr.bottom = b ∧ hr.end_ = b + GrainBytes

/-- Every slot at or above `_allocated_length` is null. -/
def UncommittedNull (s : HeapRegionSeq) : Prop :=
  ∀ i, s._allocated_length ≤ i → i < s._max_length → s._regions[i]? = some none

instance (s : HeapRegionSeq) : Decidable s.UncommittedNull :=
  inferInstanceAs (Decidable (∀ i, s._allocated_length ≤ i → i < s._max_length → _))

/-- The table of the sample heap of eight regions of 8 bytes from address 16
with the first `n` handles committed, all empty. -/
def sampleTable (n : Nat) : List (Option HeapRegion) :=
  (List.range n).map (fun i => some (mkRegion i (16 + 8 * i) (24 + 8 * i) true))
    ++ List.replicate (8 - n) none

/-- The sample heap with `length` active and `allocated` committed regions. -/
def sampleState (length allocated : Nat) : HeapRegionSeq :=
  { _regions := sampleTable allocated,
    _heap_bottom := 16, _heap_end := 80, _region_shift := 3,
    _next_search_index := 0, _allocated_length := allocated, _length := length,
    _max_length := 8 }

/-- The regions of the sample heap at indices `lo, ..., lo + n - 1`. -/
def sampleRegions (lo n : Nat) : List HeapRegion :=
  (List.range' lo n).map (fun i => mkRegion i (16 + 8 * i) (24 + 8 * i) true)

/-- A region factory that builds like `sampleFactory` below index 3 and fails
from index 3 on. -/
def failingFactory (index bottom : Nat) : Option HeapRegion :=
  if index < 3 then sampleFactory index bottom else none

/-- The regions `iterate_from` goes through from start index `k`: those at the
indices `k, k + 1, ..., length - 1, 0, 1, ..., k - 1`, in that order. -/
def wrap_order (s : HeapRegionSeq) (k : Nat) : List HeapRegion :=
  (List.range' k (s._length - k) ++ List.range k).filterMap s.at_

/-- The state of a visitor after it has been shown the regions `rs` in order,
whatever it answered. -/
def visit {σ : Type} (blk : HeapRegionClosure σ) (c : σ) (rs : List HeapRegion) : σ :=
  rs.foldl (fun c r => (blk.doHeapRegion c r).2) c

/-- The number of the invocation (counted from 1) on which the visitor first
requests a stop when it is shown the regions `rs` in order; `none` when it
never does. -/
def first_stop {σ : Type} (blk : HeapRegionClosure σ) : σ → List HeapRegion → Option Nat
  | _, [] => none
  | c, r :: rs =>
    if (blk.doHeapRegion c r).1 then some 1
    else (first_stop blk (blk.doHeapRegion c r).2 rs).map (fun j => j + 1)

/-- The visitor `blk` instrumented with a log: the regions `doHeapRegion` was
invoked on, in order, and the number of `incomplete` notifications. -/
def traced {σ : Type} (blk : HeapRegionClosure σ) :
    HeapRegionClosure (σ × List HeapRegion × Nat) :=
  { doHeapRegion := fun c r =>
      ((blk.doHeapRegion c.1 r).1, ((blk.doHeapRegion c.1 r).2, c.2.1 ++ [r], c.2.2)),
    incomplete := fun c => (blk.incomplete c.1, c.2.1, c.2.2 + 1) }

/-- What a loop over the regions `rs` with an early return does to a visitor:
the visitor's state at the end and whether the loop returned early. -/
def visit_until_stop {σ : Type} (blk : HeapRegionClosure σ) : σ → List HeapRegion → σ × Bool
  | c, [] => (c, false)
  | c, r :: rs =>
    if (blk.doHeapRegion c r).1 then (blk.incomplete (blk.doHeapRegion c r).2, true)
    else visit_until_stop blk (blk.doHeapRegion c r).2 rs

/-- A visitor that counts the regions it is shown and requests a stop on the
third. -/
def stopAtThird : HeapRegionClosure Nat :=
  { doHeapRegion := fun c _ => (decide (c + 1 = 3), c + 1),
    incomplete := fun c => c }

/-- Modelled from the spec: `addr_to_index_biased(addr)` of
`heapRegionSeq.hpp`, the index into the biased table,
`(uintx) addr >> _region_shift`. -/
def addr_to_index_biased (s : HeapRegionSeq) (addr : Nat) : Nat :=
  addr >>> s._region_shift

/-- The number of slots by which `initialize` shifts the biased table:
`_regions_biased = _regions - ((uintx) bottom >> _region_shift)`. -/
def regions_bias (s : HeapRegionSeq) : Nat :=
  s._heap_bottom >>> s._region_shift

/-- Modelled from the spec: the slot of `_regions` that
`_regions_biased[addr_to_index_biased(addr)]` is, for an address at or above
`_heap_bottom`. -/
def addr_to_index (s : HeapRegionSeq) (addr : Nat) : Nat :=
  s.addr_to_index_biased addr - s.regions_bias

/-- Ten active regions of 8 bytes each from address 16; regions 2, 3, 4, 7 and
8 are empty, the others are occupied; the search cache is 0. -/
def tenSeq : HeapRegionSeq :=
  { _regions := [some (mkRegion 0 16 24 false), some (mkRegion 1 24 32 false),
      some (mkRegion 2 32 40 true), some (mkRegion 3 40 48 true),
      some (mkRegion 4 48 56 true), some (mkRegion 5 56 64 false),
      some (mkRegion 6 64 72 false), some (mkRegion 7 72 80 true),
      some (mkRegion 8 80 88 true), some (mkRegion 9 88 96 false)],
    _heap_bottom := 16, _heap_end := 96, _region_shift := 3,
    _next_search_index := 0, _allocated_length := 10, _length := 10, _max_length := 10 }

/-- The state `tenSeq` after the run found at index 2 has been handed out:
the search cache is 5 and regions 2, 3 and 4 are occupied. -/
def tenSeqUsed : HeapRegionSeq :=
  { _regions := [some (mkRegion 0 16 24 false), some (mkRegion 1 24 32 false),
      some (mkRegion 2 32 40 false), some (mkRegion 3 40 48 false),
      some (mkRegion 4 48 56 false), some (mkRegion 5 56 64 false),
      some (mkRegion 6 64 72 false), some (mkRegion 7 72 80 true),
      some (mkRegion 8 80 88 true), some (mkRegion 9 88 96 false)],
    _heap_bottom := 16, _heap_end := 96, _region_shift := 3,
    _next_search_index := 5, _allocated_length := 10, _length := 10, _max_length := 10 }

/-- The capacity of the region at index `j`, 0 when the slot has no handle. -/
def capacityAt (s : HeapRegionSeq) (j : Nat) : Nat :=
  match s.at_ j with
  | some hr => hr.capacity
  | none => 0

/-- The `while (index > 0)` loop of `free_suffix`. -/
def free_suffix_loop (s : HeapRegionSeq) : Nat → Nat → Nat → Option Nat
  | 0, index, res => if index > 0 then none else some res
  | fuel + 1, index, res =>
    if index > 0 then
      match s.at_ (u32 (index + (2 ^ 32 - 1))) with
      | none => none
      | some hr =>
        if !hr.is_empty then some res
        else free_suffix_loop s fuel (u32 (index + (2 ^ 32 - 1))) (u32 (res + 1))
    else some res

/-- The function `HeapRegionSeq::free_suffix()`: the value returned and the
state after the call, which is the state before it since the function
assigns no field. The loop walks `index` down from `length`, so `length`
turns are enough for it to end. -/
def free_suffix (s : HeapRegionSeq) : Option (Nat × HeapRegionSeq) :=
  match free_suffix_loop s s.length s.length 0 with
  | none => none
  | some res => some (res, s)

/-- Every committed region carries its table index and starts where the
region before it ends, the region at index 0 at `_heap_bottom`. -/
def CommittedContiguous (s : HeapRegionSeq) : Prop :=
  ∀ i, i < s._allocated_length →
    ∃ hr, s.at_ i = some hr ∧ hr.hrs_index = i ∧ hr.bottom = s.last_end i

/-- The states reached from `s0` by `expand_by` and `shrink_by` calls, when
every factory builds regions of `GrainBytes` bytes at the requested index
and bottom, and every `expand_by` starts at the committed upper address. -/
inductive GrowShrink (GrainBytes : Nat) (s0 : HeapRegionSeq) : HeapRegionSeq → Prop where
  | start : GrowShrink GrainBytes s0 s0
  | expand (s : HeapRegionSeq) (factory : Nat → Nat → Option HeapRegion)
      (old_end new_end : Nat) (list : FreeRegionList) (r : ExpandResult) :
      GrowShrink GrainBytes s0 s → FactoryBuilds factory GrainBytes →
      old_end = s.last_end s._length →
      s.expand_by factory old_end new_end list = some r →
      GrowShrink GrainBytes s0 r.seq
  | shrink (s : HeapRegionSeq) (shrink_bytes : Nat) (r : ShrinkResult) :
      GrowShrink GrainBytes s0 s → s.shrink_by shrink_bytes = some r →
      GrowShrink GrainBytes s0 r.seq

/-! ## Theorems -/

theorem u32_of_lt {x : Nat} (h : x < 2 ^ 32) : u32 x = x := Nat.mod_eq_of_lt h

theorem find_contiguous_loop_inv (s : HeapRegionSeq) (from_ num : Nat)
    (hlen : s._length < 2 ^ 32) (hnum32 : num < 2 ^ 32) (hnum : 1 ≤ num)
    (hact : s.ActiveHandles) :
    ∀ (fuel : Nat) (st : FindState), s.FindInv from_ num st →
      s._length - st.curr ≤ fuel →
      ∃ st', find_contiguous_loop s s._length num fuel st = some st' ∧
        s.FindInv from_ num st' ∧ ¬ (st'.curr < s._length ∧ st'.num_so_far < num) := by
  intro fuel
  induction fuel with
  | zero =>
    intro st hinv hfuel
    have hc : ¬ (st.curr < s._length ∧ st.num_so_far < num) := by
      intro h; omega
    exact ⟨st, by simp [find_contiguous_loop, hc], hinv, hc⟩
  | succ fuel ih =>
    intro st hinv hfuel
    by_cases hc : st.curr < s._length ∧ st.num_so_far < num
    · obtain ⟨hcl, hnl⟩ := hc
      have hsome := hact st.curr hcl
      obtain ⟨hr, hhr⟩ := Option.isSome_iff_exists.mp hsome
      have hcur : u32 (st.curr + 1) = st.curr + 1 := u32_of_lt (by omega)
      have hnsf : u32 (st.num_so_far + 1) = st.num_so_far + 1 := u32_of_lt (by omega)
      obtain ⟨h1, h2, h3, h4⟩ := hinv
      have hne : st.curr ≠ G1_NULL_HRS_INDEX := by
        unfold G1_NULL_HRS_INDEX; omega
      by_cases he : hr.is_empty = true
      · have hempty : s.emptyAt st.curr = true := by simp [emptyAt, hhr, he]
        by_cases hf : st.first = G1_NULL_HRS_INDEX
        · -- a run starts at curr
          have hstep : find_contiguous_loop s s._length num (fuel + 1) st =
              find_contiguous_loop s s._length num fuel
                { curr := st.curr + 1, first := st.curr, num_so_far := 1 } := by
            simp [find_contiguous_loop, hcl, hnl, hhr, he, hf, hcur]
          rw [hstep]
          apply ih
          · rcases h4 with ⟨_, h0, hno⟩ | ⟨hf', _⟩
            · refine ⟨by simp; omega, by simp; omega, by simp; omega, Or.inr ⟨hne, le_refl _, h1, rfl, ?_, ?_⟩⟩
              · intro i hi
                have : i = 0 := by simp at hi; omega
                subst this; simpa using hempty
              · intro r hr1 hr2
                obtain ⟨i, hi1, hi2, hi3⟩ := hno r hr1 hr2
                exact ⟨i, hi1, by simp; omega, hi3⟩
            · exact absurd hf hf'
          · simp; omega
        · -- the run continues
          have hstep : find_contiguous_loop s s._length num (fuel + 1) st =
              find_contiguous_loop s s._length num fuel
                { curr := st.curr + 1, first := st.first,
                  num_so_far := st.num_so_far + 1 } := by
            simp [find_contiguous_loop, hcl, hnl, hhr, he, hf, hcur, hnsf]
          rw [hstep]
          apply ih
          · rcases h4 with ⟨hf', _⟩ | ⟨_, hn1, hff, hsum, hall, hno⟩
            · exact absurd hf' hf
            · refine ⟨by simp; omega, by simp; omega, by simp; omega,
                Or.inr ⟨hf, by simp, hff, by simp; omega, ?_, ?_⟩⟩
              · intro i hi
                simp at hi
                by_cases hi' : i < st.num_so_far
                · exact hall i hi'
                · have : st.first + i = st.curr := by omega
                  rw [this]; exact hempty
              · intro r hr1 hr2
                obtain ⟨i, hi1, hi2, hi3⟩ := hno r hr1 hr2
                exact ⟨i, hi1, by simp; omega, hi3⟩
          · simp; omega
      · -- an occupied region resets the run
        have hocc : s.emptyAt st.curr = false := by simp [emptyAt, hhr, he]
        have hstep : find_contiguous_loop s s._length num (fuel + 1) st =
            find_contiguous_loop s s._length num fuel
              { curr := st.curr + 1, first := G1_NULL_HRS_INDEX, num_so_far := 0 } := by
          simp [find_contiguous_loop, hcl, hnl, hhr, he, hcur]
        rw [hstep]
        apply ih
        · refine ⟨by simp; omega, by simp; omega, by simp, Or.inl ⟨rfl, rfl, ?_⟩⟩
          intro r hr1 hr2
          simp at hr2
          rcases h4 with ⟨_, h0, hno⟩ | ⟨_, hn1, hff, hsum, hall, hno⟩
          · by_cases hrc : r < st.curr
            · obtain ⟨i, hi1, hi2, hi3⟩ := hno r hr1 hrc
              exact ⟨i, hi1, by simp; omega, hi3⟩
            · have : r = st.curr := by omega
              subst this
              exact ⟨0, by omega, by simp, by simpa using hocc⟩
          · by_cases hrc : r < st.first
            · obtain ⟨i, hi1, hi2, hi3⟩ := hno r hr1 hrc
              exact ⟨i, hi1, by simp; omega, hi3⟩
            · refine ⟨st.curr - r, by omega, by simp; omega, ?_⟩
              have : r + (st.curr - r) = st.curr := by omega
              rw [this]; exact hocc
        · simp; omega
    · exact ⟨st, by simp [find_contiguous_loop, hc], hinv, hc⟩

theorem find_contiguous_from_correct (s : HeapRegionSeq) (from_ num : Nat)
    (hlen : s._length < 2 ^ 32) (hnum32 : num < 2 ^ 32) (hact : s.ActiveHandles)
    (hfrom : from_ ≤ s._length) (hnum : 2 ≤ num) :
    ∃ res, s.find_contiguous_from from_ num = some res ∧
      ((∃ r, from_ ≤ r ∧ s.IsRun num r) →
        (from_ ≤ res ∧ s.IsRun num res) ∧ ∀ r, from_ ≤ r → s.IsRun num r → res ≤ r) ∧
      (res = G1_NULL_HRS_INDEX ↔ ¬ ∃ r, from_ ≤ r ∧ s.IsRun num r) := by
  have hinit : s.FindInv from_ num
      { curr := from_, first := G1_NULL_HRS_INDEX, num_so_far := 0 } := by
    refine ⟨le_refl _, hfrom, Nat.zero_le _, Or.inl ⟨rfl, rfl, ?_⟩⟩
    intro r h1 h2
    simp at h2; omega
  obtain ⟨st, hrun, ⟨h1, h2, h3, h4⟩, hexit⟩ :=
    find_contiguous_loop_inv s from_ num hlen hnum32 (by omega) hact
      (s._length - from_) _ hinit (le_refl _)
  by_cases hfound : st.num_so_far = num
  · -- the loop stopped on a complete run
    have hres : s.find_contiguous_from from_ num = some st.first := by
      simp [find_contiguous_from, length, hrun, hfound]
    rcases h4 with ⟨_, h0, _⟩ | ⟨hne, _, hff, hsum, hall, hno⟩
    · omega
    · have hisrun : s.IsRun num st.first := ⟨by omega, fun i hi => hall i (by omega)⟩
      have hleast : ∀ r, from_ ≤ r → s.IsRun num r → st.first ≤ r := by
        intro r hr1 hr2
        by_contra hlt
        obtain ⟨i, hi1, _, hi3⟩ := hno r hr1 (by omega)
        have := hr2.2 i hi1
        rw [this] at hi3; cases hi3
      refine ⟨st.first, hres, fun _ => ⟨⟨hff, hisrun⟩, hleast⟩, ?_⟩
      constructor
      · intro h; exact absurd h hne
      · intro h; exact absurd ⟨st.first, hff, hisrun⟩ h
  · -- the loop reached the end of the active range
    have hres : s.find_contiguous_from from_ num = some G1_NULL_HRS_INDEX := by
      simp [find_contiguous_from, length, hrun, hfound]
    have hcurr : st.curr = s._length := by
      by_contra hne
      exact hexit ⟨by omega, by omega⟩
    have hnone : ¬ ∃ r, from_ ≤ r ∧ s.IsRun num r := by
      rintro ⟨r, hr1, hr2, hr3⟩
      rcases h4 with ⟨_, h0, hno⟩ | ⟨_, _, hff, hsum, hall, hno⟩
      · obtain ⟨i, hi1, _, hi3⟩ := hno r hr1 (by omega)
        have := hr3 i hi1
        rw [this] at hi3; cases hi3
      · by_cases hlt : r < st.first
        · obtain ⟨i, hi1, _, hi3⟩ := hno r hr1 hlt
          have := hr3 i hi1
          rw [this] at hi3; cases hi3
        · omega
    exact ⟨G1_NULL_HRS_INDEX, hres, fun h => absurd h hnone, fun _ => hnone, fun _ => rfl⟩

/-- C1. For a state whose active slots hold handles, `from <= length` and
`num >= 2`, `find_contiguous_from(from, num)` returns a value; when a run of
`num` empty regions starting at or after `from` exists inside the active
range the value is the least start of such a run, and the value is
`G1_NULL_HRS_INDEX` exactly when no such run exists. -/
theorem find_contiguous_from_least (s : HeapRegionSeq) (from_ num : Nat)
    (hlen : s._length < 2 ^ 32) (hnum32 : num < 2 ^ 32) (hact : s.ActiveHandles)
    (hfrom : from_ ≤ s._length) (hnum : 2 ≤ num) :
    ∃ res, s.find_contiguous_from from_ num = some res ∧
      ((∃ r, from_ ≤ r ∧ s.IsRun num r) →
        (from_ ≤ res ∧ s.IsRun num res) ∧ ∀ r, from_ ≤ r → s.IsRun num r → res ≤ r) ∧
      (res = G1_NULL_HRS_INDEX ↔ ¬ ∃ r, from_ ≤ r ∧ s.IsRun num r) :=
  find_contiguous_from_correct s from_ num hlen hnum32 hact hfrom hnum

/-- Witness for C1 on the six-region sample, searching from index 0 for a run
of two. -/
theorem find_contiguous_from_least_witness :
    sampleSeq._length < 2 ^ 32 ∧ 2 < 2 ^ 32 ∧ sampleSeq.ActiveHandles ∧
    0 ≤ sampleSeq._length ∧ 2 ≤ 2 ∧
    ∃ res, sampleSeq.find_contiguous_from 0 2 = some res ∧
      ((∃ r, 0 ≤ r ∧ sampleSeq.IsRun 2 r) →
        (0 ≤ res ∧ sampleSeq.IsRun 2 res) ∧
          ∀ r, 0 ≤ r → sampleSeq.IsRun 2 r → res ≤ r) ∧
      (res = G1_NULL_HRS_INDEX ↔ ¬ ∃ r, 0 ≤ r ∧ sampleSeq.IsRun 2 r) :=
  ⟨by decide, by decide, by decide, by decide, by decide,
    find_contiguous_from_least sampleSeq 0 2 (by decide) (by decide) (by decide)
      (by decide) (by decide)⟩

/-- The outcome of `find_contiguous` on a state whose active slots hold
handles: the value found, the state after the call, and what the value
means. -/
theorem find_contiguous_correct (s : HeapRegionSeq) (num : Nat)
    (hlen : s._length < 2 ^ 32) (hnum32 : num < 2 ^ 32) (hact : s.ActiveHandles)
    (hnsi : s._next_search_index ≤ s._length) (hnum : 2 ≤ num) :
    ∃ res, s.find_contiguous num =
        some (res, if res ≠ G1_NULL_HRS_INDEX then
          { s with _next_search_index := res + num } else s) ∧
      (res = G1_NULL_HRS_INDEX ↔ ¬ ∃ r, s.IsRun num r) ∧
      (res ≠ G1_NULL_HRS_INDEX → s.IsRun num res) := by
  obtain ⟨res0, hres0, hleast0, hiff0⟩ :=
    find_contiguous_from_correct s s._next_search_index num hlen hnum32 hact hnsi hnum
  obtain ⟨res1, hres1, hleast1, hiff1⟩ :=
    find_contiguous_from_correct s 0 num hlen hnum32 hact (Nat.zero_le _) hnum
  have hall : (∃ r, 0 ≤ r ∧ s.IsRun num r) ↔ ∃ r, s.IsRun num r := by simp
  rw [hall] at hiff1 hleast1
  have hwrap : ∀ r, s.IsRun num r → u32 (r + num) = r + num := fun r hr =>
    u32_of_lt (lt_of_le_of_lt hr.1 hlen)
  by_cases hretry : res0 = G1_NULL_HRS_INDEX ∧ s._next_search_index > 0
  · -- the search from the cached index failed, the scan restarts from 0
    refine ⟨res1, ?_, hiff1, ?_⟩
    · by_cases hn : res1 = G1_NULL_HRS_INDEX
      · simp [find_contiguous, hres0, hretry, hres1, hn]
      · have hrun := (hleast1 (not_not.mp (mt hiff1.mpr hn))).1.2
        simp [find_contiguous, hres0, hretry, hres1, hn, hwrap res1 hrun]
    · intro hn
      exact (hleast1 (not_not.mp (mt hiff1.mpr hn))).1.2
  · by_cases hn : res0 = G1_NULL_HRS_INDEX
    · -- the cached index was 0 and the full scan failed
      have hz : s._next_search_index = 0 := by
        by_contra h; exact hretry ⟨hn, by omega⟩
      rw [hz] at hres0
      have heq : res1 = res0 := by rw [hres0] at hres1; exact (Option.some.inj hres1).symm
      refine ⟨res0, ?_, heq ▸ hiff1, fun h => absurd hn h⟩
      simp [find_contiguous, hz, hres0, hn]
    · -- the search from the cached index succeeded
      have hex := not_not.mp (mt hiff0.mpr hn)
      have hrun := (hleast0 hex).1.2
      refine ⟨res0, ?_, ?_, fun _ => hrun⟩
      · simp [find_contiguous, hres0, hn, hwrap res0 hrun]
      · constructor
        · intro h; exact absurd h hn
        · intro h; exact absurd ⟨res0, hrun⟩ h

/-- C2. For a state whose active slots hold handles, with
`next_search_index <= length` and `num >= 2`, `find_contiguous(num)` returns
a value; the value is `G1_NULL_HRS_INDEX` if and only if the active range has
no run of `num` consecutive empty regions, a value other than the sentinel is
the start of such a run inside the active range, and replacing the cached
index by any other valid one does not change whether a run is found. -/
theorem find_contiguous_no_false_negative (s : HeapRegionSeq) (num : Nat)
    (hlen : s._length < 2 ^ 32) (hnum32 : num < 2 ^ 32) (hact : s.ActiveHandles)
    (hnsi : s._next_search_index ≤ s._length) (hnum : 2 ≤ num) :
    ∃ res s', s.find_contiguous num = some (res, s') ∧
      (res = G1_NULL_HRS_INDEX ↔ ¬ ∃ r, s.IsRun num r) ∧
      (res ≠ G1_NULL_HRS_INDEX → s.IsRun num res) ∧
      ∀ k, k ≤ s._length →
        ∃ res2 s2, ({ s with _next_search_index := k } : HeapRegionSeq).find_contiguous num
            = some (res2, s2) ∧
          (res2 = G1_NULL_HRS_INDEX ↔ res = G1_NULL_HRS_INDEX) := by
  obtain ⟨res, hres, hiff, hrun⟩ := find_contiguous_correct s num hlen hnum32 hact hnsi hnum
  refine ⟨res, _, hres, hiff, hrun, ?_⟩
  intro k hk
  obtain ⟨res2, hres2, hiff2, _⟩ :=
    find_contiguous_correct { s with _next_search_index := k } num hlen hnum32 hact hk hnum
  exact ⟨res2, _, hres2, hiff2.trans hiff.symm⟩

/-- Witness for C2 on the six-region sample (cached index 3), searching for a
run of two. -/
theorem find_contiguous_no_false_negative_witness :
    sampleSeq._length < 2 ^ 32 ∧ 2 < 2 ^ 32 ∧ sampleSeq.ActiveHandles ∧
    sampleSeq._next_search_index ≤ sampleSeq._length ∧ 2 ≤ 2 ∧
    ∃ res s', sampleSeq.find_contiguous 2 = some (res, s') ∧
      (res = G1_NULL_HRS_INDEX ↔ ¬ ∃ r, sampleSeq.IsRun 2 r) ∧
      (res ≠ G1_NULL_HRS_INDEX → sampleSeq.IsRun 2 res) ∧
      ∀ k, k ≤ sampleSeq._length →
        ∃ res2 s2,
          ({ sampleSeq with _next_search_index := k } : HeapRegionSeq).find_contiguous 2
            = some (res2, s2) ∧
          (res2 = G1_NULL_HRS_INDEX ↔ res = G1_NULL_HRS_INDEX) :=
  ⟨by decide, by decide, by decide, by decide, by decide,
    find_contiguous_no_false_negative sampleSeq 2 (by decide) (by decide) (by decide)
      (by decide) (by decide)⟩

/-- C3. For a state whose active slots hold handles, with
`next_search_index <= length` and `num >= 2`, `find_contiguous(num)` returns
a value and a state; when the value is a found index `r` the new
`next_search_index` is `r + num`, and when it is `G1_NULL_HRS_INDEX` the
state, `next_search_index` included, is the one before the call. -/
theorem find_contiguous_cache_update (s : HeapRegionSeq) (num : Nat)
    (hlen : s._length < 2 ^ 32) (hnum32 : num < 2 ^ 32) (hact : s.ActiveHandles)
    (hnsi : s._next_search_index ≤ s._length) (hnum : 2 ≤ num) :
    ∃ res s', s.find_contiguous num = some (res, s') ∧
      (res ≠ G1_NULL_HRS_INDEX → s'._next_search_index = res + num) ∧
      (res = G1_NULL_HRS_INDEX →
        s'._next_search_index = s._next_search_index ∧ s' = s) := by
  obtain ⟨res, hres, _, _⟩ := find_contiguous_correct s num hlen hnum32 hact hnsi hnum
  refine ⟨res, _, hres, ?_, ?_⟩
  · intro hn; simp [hn]
  · intro hn; simp [hn]

/-- Witness for C3 on the six-region sample (cached index 3), searching for a
run of two. -/
theorem find_contiguous_cache_update_witness :
    sampleSeq._length < 2 ^ 32 ∧ 2 < 2 ^ 32 ∧ sampleSeq.ActiveHandles ∧
    sampleSeq._next_search_index ≤ sampleSeq._length ∧ 2 ≤ 2 ∧
    ∃ res s', sampleSeq.find_contiguous 2 = some (res, s') ∧
      (res ≠ G1_NULL_HRS_INDEX → s'._next_search_index = res + 2) ∧
      (res = G1_NULL_HRS_INDEX →
        s'._next_search_index = sampleSeq._next_search_index ∧ s' = sampleSeq) :=
  ⟨by decide, by decide, by decide, by decide, by decide,
    find_contiguous_cache_update sampleSeq 2 (by decide) (by decide) (by decide)
      (by decide) (by decide)⟩

theorem at_eq_some_iff (s : HeapRegionSeq) (i : Nat) (hr : HeapRegion) :
    s.at_ i = some hr ↔ s._regions[i]? = some (some hr) := by
  unfold at_
  cases h : s._regions[i]? with
  | none => simp
  | some o => cases o <;> simp

theorem at_lt_length (s : HeapRegionSeq) (i : Nat) (h : (s.at_ i).isSome = true) :
    i < s._regions.length := by
  obtain ⟨hr, hhr⟩ := Option.isSome_iff_exists.mp h
  rw [at_eq_some_iff] at hhr
  exact (List.getElem?_eq_some_iff.mp hhr).1

theorem expand_loop_done (factory : Nat → Nat → Option HeapRegion) (old_end new_end fuel : Nat)
    (s : HeapRegionSeq) (nb : Nat) (list : FreeRegionList) (calls : List (Nat × Nat))
    (h : ¬ nb < new_end) :
    expand_loop factory old_end new_end fuel s nb list calls =
      some { seq := s, list := list, mr := ⟨old_end, nb⟩, factory_calls := calls } := by
  cases fuel <;> simp [expand_loop, h]

theorem expand_loop_fail (factory : Nat → Nat → Option HeapRegion) (old_end new_end fuel : Nat)
    (s : HeapRegionSeq) (nb : Nat) (list : FreeRegionList) (calls : List (Nat × Nat))
    (h : nb < new_end) (halloc : s._length = s._allocated_length)
    (hf : factory s._length nb = none) :
    expand_loop factory old_end new_end (fuel + 1) s nb list calls =
      some { seq := s, list := list, mr := ⟨old_end, nb⟩,
             factory_calls := calls ++ [(s._length, nb)] } := by
  simp [expand_loop, h, length, ← halloc, hf]

theorem expand_loop_alloc (factory : Nat → Nat → Option HeapRegion) (old_end new_end fuel : Nat)
    (s : HeapRegionSeq) (nb : Nat) (list : FreeRegionList) (calls : List (Nat × Nat))
    (hr : HeapRegion)
    (h : nb < new_end) (halloc : s._length = s._allocated_length)
    (hf : factory s._length nb = some hr) (hidx : s._length < s._regions.length)
    (h32 : s._length + 1 < 2 ^ 32) :
    expand_loop factory old_end new_end (fuel + 1) s nb list calls =
      expand_loop factory old_end new_end fuel
        { s with _regions := s._regions.set s._length (some hr),
                 _allocated_length := s._allocated_length + 1,
                 _length := s._length + 1 }
        hr.end_ (list ++ [hr]) (calls ++ [(s._length, nb)]) := by
  have hget : (s._regions.set s._allocated_length (some hr))[s._allocated_length]?
      = some (some hr) := by
    rw [List.getElem?_set_self (halloc ▸ hidx)]
  have hw : u32 (s._allocated_length + 1) = s._allocated_length + 1 :=
    u32_of_lt (halloc ▸ h32)
  simp [expand_loop, h, length, ← halloc, hf, hidx, increment_length, at_,
    FreeRegionList.add_as_tail, halloc ▸ hget, halloc ▸ hw]

theorem expand_loop_reuse (factory : Nat → Nat → Option HeapRegion) (old_end new_end fuel : Nat)
    (s : HeapRegionSeq) (nb : Nat) (list : FreeRegionList) (calls : List (Nat × Nat))
    (hr : HeapRegion)
    (h : nb < new_end) (hne : s._length ≠ s._allocated_length)
    (hat : s.at_ s._length = some hr) (h32 : s._length + 1 < 2 ^ 32) :
    expand_loop factory old_end new_end (fuel + 1) s nb list calls =
      expand_loop factory old_end new_end fuel { s with _length := s._length + 1 }
        hr.end_ (list ++ [hr]) calls := by
  have hat2 : ({ s with _length := s._length + 1 } : HeapRegionSeq).at_ s._length = some hr := hat
  simp [expand_loop, h, length, hne, increment_length, u32_of_lt h32, hat2,
    FreeRegionList.add_as_tail]

theorem at_congr (s t : HeapRegionSeq) (i : Nat) (h : t._regions[i]? = s._regions[i]?) :
    t.at_ i = s.at_ i := by
  unfold at_; rw [h]

/-- What the loop of `expand_by` guarantees about every result it returns,
from a state whose table and counters agree. -/
theorem expand_loop_post (factory : Nat → Nat → Option HeapRegion) (old_end new_end : Nat) :
    ∀ (fuel : Nat) (s : HeapRegionSeq) (nb : Nat) (list : FreeRegionList)
      (calls : List (Nat × Nat)) (r : ExpandResult), s.Valid →
      expand_loop factory old_end new_end fuel s nb list calls = some r →
      r.seq.Valid ∧ s._length ≤ r.seq._length ∧
      s._allocated_length ≤ r.seq._allocated_length ∧
      r.seq._allocated_length = max s._allocated_length r.seq._length ∧
      (∀ i, i < s._allocated_length ∨ r.seq._allocated_length ≤ i →
        r.seq._regions[i]? = s._regions[i]?) ∧
      (r.seq._next_search_index = s._next_search_index ∧
        r.seq._max_length = s._max_length ∧ r.seq._heap_bottom = s._heap_bottom ∧
        r.seq._heap_end = s._heap_end ∧ r.seq._region_shift = s._region_shift) ∧
      (∃ extra, r.factory_calls = calls ++ extra ∧
        extra.map Prod.fst = List.range' s._allocated_length extra.length ∧
        ((∀ i b, (factory i b).isSome = true) →
          extra.length = r.seq._allocated_length - s._allocated_length)) ∧
      (∃ added, r.list = list ++ added ∧
        added.map some =
          (List.range' s._length (r.seq._length - s._length)).map r.seq.at_ ∧
        r.mr = ⟨old_end, added.foldl (fun _ hr => hr.end_) nb⟩) := by
  intro fuel
  induction fuel with
  | zero =>
    intro s nb list calls r hv hrun
    by_cases hc : nb < new_end
    · simp [expand_loop, hc] at hrun
    · rw [expand_loop_done _ _ _ _ _ _ _ _ hc] at hrun
      cases hrun
      have hb1 := hv.1.1
      exact ⟨hv, le_refl _, le_refl _, (max_eq_left hb1).symm, fun _ _ => rfl,
        ⟨rfl, rfl, rfl, rfl, rfl⟩, ⟨[], by simp, by simp, fun _ => by simp⟩,
        ⟨[], by simp, by simp, by simp⟩⟩
  | succ fuel ih =>
    intro s nb list calls r hv hrun
    by_cases hc : nb < new_end
    · obtain ⟨⟨hb1, hb2, hb3⟩, htab, hmax, hslots⟩ := hv
      by_cases halloc : s._length = s._allocated_length
      · cases hf : factory s._length nb with
        | none =>
          rw [expand_loop_fail _ _ _ _ _ _ _ _ hc halloc hf] at hrun
          cases hrun
          refine ⟨⟨⟨hb1, hb2, hb3⟩, htab, hmax, hslots⟩, le_refl _, le_refl _,
            (max_eq_left hb1).symm, fun _ _ => rfl, ⟨rfl, rfl, rfl, rfl, rfl⟩,
            ⟨[(s._length, nb)], rfl, by simp [halloc, List.range'], ?_⟩,
            ⟨[], by simp, by simp, by simp⟩⟩
          intro hnf
          have := hnf s._length nb
          rw [hf] at this; cases this
        | some hr =>
          by_cases hidx : s._length < s._regions.length
          · have h32 : s._length + 1 < 2 ^ 32 := by omega
            rw [expand_loop_alloc _ _ _ _ _ _ _ _ hr hc halloc hf hidx h32] at hrun
            have hv2 : ({ s with _regions := s._regions.set s._length (some hr),
                                 _allocated_length := s._allocated_length + 1,
                                 _length := s._length + 1 } : HeapRegionSeq).Valid := by
              refine ⟨⟨by simp; omega, by simp; omega, by simp; omega⟩, by simpa using htab,
                hmax, ?_⟩
              intro i hi
              simp only at hi
              by_cases hil : i = s._length
              · subst hil
                simp [at_, List.getElem?_set_self hidx]
              · have := hslots i (by omega)
                simpa [at_, List.getElem?_set_ne (Ne.symm hil)] using this
            obtain ⟨hvr, hl, ha, hmx, hsame, hframe, ⟨extra, hex1, hex2, hex3⟩,
              ⟨added, had1, had2, had3⟩⟩ := ih _ _ _ _ _ hv2 hrun
            simp only at hl ha hmx hsame hframe hex2 hex3 had2
            have hrat : r.seq.at_ s._length = some hr := by
              have h1 := hsame s._length (Or.inl (by omega))
              rw [List.getElem?_set_self hidx] at h1
              simp [at_, h1]
            refine ⟨hvr, by omega, by omega, ?_, ?_, hframe, ?_, ?_⟩
            · rw [hmx]; omega
            · intro i hi
              have hne : s._length ≠ i := by omega
              rw [hsame i (by omega), List.getElem?_set_ne hne]
            · refine ⟨(s._length, nb) :: extra, by simp [hex1], ?_, ?_⟩
              · simp [hex2, List.range', halloc]
              · intro hnf
                have := hex3 hnf
                simp only [List.length_cons]; omega
            · refine ⟨hr :: added, by simp [had1], ?_, ?_⟩
              · have hlen : r.seq._length - s._length = (r.seq._length - (s._length + 1)) + 1 := by
                  omega
                rw [hlen, List.range'_succ]
                simp [had2, hrat]
              · rw [had3]; rfl
          · simp [expand_loop, hc, length, ← halloc, hf, hidx] at hrun
      · have hlt : s._length < s._allocated_length := by omega
        obtain ⟨hr, hhr⟩ := Option.isSome_iff_exists.mp (hslots _ hlt)
        have h32 : s._length + 1 < 2 ^ 32 := by omega
        rw [expand_loop_reuse _ _ _ _ _ _ _ _ hr hc halloc hhr h32] at hrun
        have hv2 : ({ s with _length := s._length + 1 } : HeapRegionSeq).Valid :=
          ⟨⟨by simp; omega, hb2, by simp; omega⟩, htab, hmax, hslots⟩
        obtain ⟨hvr, hl, ha, hmx, hsame, hframe, ⟨extra, hex1, hex2, hex3⟩,
          ⟨added, had1, had2, had3⟩⟩ := ih _ _ _ _ _ hv2 hrun
        simp only at hl ha hmx hsame hframe hex2 hex3 had2
        have hrat : r.seq.at_ s._length = some hr := by
          rw [at_congr s r.seq _ (hsame s._length (Or.inl hlt))]; exact hhr
        refine ⟨hvr, by omega, ha, hmx, hsame, hframe, ⟨extra, hex1, hex2, hex3⟩, ?_⟩
        · refine ⟨hr :: added, by simp [had1], ?_, ?_⟩
          · have hlen : r.seq._length - s._length = (r.seq._length - (s._length + 1)) + 1 := by
              omega
            rw [hlen, List.range'_succ]
            simp [had2, hrat]
          · rw [had3]; rfl
    · rw [expand_loop_done _ _ _ _ _ _ _ _ hc] at hrun
      cases hrun
      have hb1 := hv.1.1
      exact ⟨hv, le_refl _, le_refl _, (max_eq_left hb1).symm, fun _ _ => rfl,
        ⟨rfl, rfl, rfl, rfl, rfl⟩, ⟨[], by simp, by simp, fun _ => by simp⟩,
        ⟨[], by simp, by simp, by simp⟩⟩

theorem u32_pred (x : Nat) (h1 : 1 ≤ x) (h2 : x < 2 ^ 32) : u32 (x + (2 ^ 32 - 1)) = x - 1 := by
  unfold u32; omega

theorem u32_pred_zero : u32 (0 + (2 ^ 32 - 1)) = 2 ^ 32 - 1 := by
  unfold u32; omega

/-- The index `i` of the loop of `shrink_by` is a table slot only when it is
`length - 1` with `length >= 1`. -/
theorem shrink_index (s : HeapRegionSeq) (i : Nat) (hlen : s._length < 2 ^ 32)
    (htab : s._regions.length < 2 ^ 32) (hi : i = u32 (s._length + (2 ^ 32 - 1)))
    (hat : (s.at_ i).isSome = true) : 1 ≤ s._length ∧ i = s._length - 1 := by
  have hlt := at_lt_length s i hat
  by_cases h0 : s._length = 0
  · rw [h0, u32_pred_zero] at hi; omega
  · exact ⟨by omega, by rw [hi, u32_pred _ (by omega) hlen]⟩

/-- The loop of `shrink_by` stopped without removing a region. -/
theorem shrink_post_stop (end_ : Nat) (s : HeapRegionSeq) (n last_start : Nat) (r : ShrinkResult)
    (h : some ({ seq := s, mr := ⟨last_start, end_⟩, num_regions_deleted := n } : ShrinkResult)
      = some r) :
    r.seq = { s with _length := r.seq._length } ∧ r.seq._length ≤ s._length ∧
    (∀ j, r.seq._length ≤ j → j < s._length →
      ∃ hr, s.at_ j = some hr ∧ hr.is_empty = true ∧ hr.isHumongous = false) ∧
    r.num_regions_deleted = n + (s._length - r.seq._length) ∧
    r.mr.end_ = end_ ∧
    r.mr.start = (if r.seq._length < s._length then
      ((s.at_ r.seq._length).map (fun hr => hr.bottom)).getD last_start else last_start) := by
  cases h
  refine ⟨rfl, le_refl _, ?_, by simp, rfl, by simp⟩
  intro j h1 h2
  simp only at h1
  omega

/-- What the loop of `shrink_by` guarantees about every result it returns. -/
theorem shrink_loop_post (end_ : Nat) :
    ∀ (fuel : Nat) (s : HeapRegionSeq) (i bytes n last_start : Nat) (r : ShrinkResult),
      s._length < 2 ^ 32 → s._regions.length < 2 ^ 32 → n + s._length < 2 ^ 32 →
      i = u32 (s._length + (2 ^ 32 - 1)) →
      shrink_loop end_ fuel s i bytes n last_start = some r →
      r.seq = { s with _length := r.seq._length } ∧ r.seq._length ≤ s._length ∧
      (∀ j, r.seq._length ≤ j → j < s._length →
        ∃ hr, s.at_ j = some hr ∧ hr.is_empty = true ∧ hr.isHumongous = false) ∧
      r.num_regions_deleted = n + (s._length - r.seq._length) ∧
      r.mr.end_ = end_ ∧
      r.mr.start = (if r.seq._length < s._length then
        ((s.at_ r.seq._length).map (fun hr => hr.bottom)).getD last_start else last_start) := by
  intro fuel
  induction fuel with
  | zero =>
    intro s i bytes n last_start r hlen htab hn hi hrun
    by_cases hb : bytes > 0
    · simp [shrink_loop, hb] at hrun
    · simp only [shrink_loop, hb, if_false] at hrun
      exact shrink_post_stop end_ s n last_start r hrun
  | succ fuel ih =>
    intro s i bytes n last_start r hlen htab hn hi hrun
    by_cases hb : bytes > 0
    · cases hcur : s.at_ i with
      | none => simp [shrink_loop, hb, hcur] at hrun
      | some cur =>
        by_cases hh : cur.isHumongous = true
        · simp only [shrink_loop, hb, if_true, hcur, hh] at hrun
          exact shrink_post_stop end_ s n last_start r hrun
        · by_cases he : cur.is_empty = true
          · obtain ⟨h1, hil⟩ := shrink_index s i hlen htab hi (by simp [hcur])
            have hdec : decrement_length s._length = s._length - 1 := u32_pred _ h1 hlen
            simp only [shrink_loop, hb, if_true, hcur, hh, he, Bool.not_true, hdec] at hrun
            have hi2 : u32 (i + (2 ^ 32 - 1)) = u32 (s._length - 1 + (2 ^ 32 - 1)) := by rw [hil]
            obtain ⟨hseq, hle, hall, hnum, hend, hstart⟩ :=
              ih { s with _length := s._length - 1 } _ _ _ _ r (by simp; omega) htab
                (by rw [u32_of_lt (by omega)]; simp; omega) hi2 hrun
            simp only at hle hall hnum hstart
            have hati : s.at_ (s._length - 1) = some cur := hil ▸ hcur
            refine ⟨?_, by omega, ?_, ?_, hend, ?_⟩
            · rw [hseq]
            · intro j hj1 hj2
              by_cases hj : j < s._length - 1
              · exact hall j hj1 hj
              · have : j = s._length - 1 := by omega
                subst this
                exact ⟨cur, hati, he, by simpa using hh⟩
            · rw [hnum, u32_of_lt (by omega)]; omega
            · rw [hstart]
              by_cases hlt : r.seq._length < s._length - 1
              · have hlt2 : r.seq._length < s._length := by omega
                rw [if_pos hlt, if_pos hlt2]
                have hsome := hall _ (le_refl _) hlt
                obtain ⟨x, hx, _⟩ := hsome
                have hx2 : s.at_ r.seq._length = some x := hx
                rw [hx, hx2]
                rfl
              · have heq : r.seq._length = s._length - 1 := by omega
                have hlt2 : r.seq._length < s._length := by omega
                rw [if_neg hlt, if_pos hlt2, heq, hati]
                rfl
          · simp only [shrink_loop, hb, if_true, hcur, hh, he, Bool.not_false] at hrun
            exact shrink_post_stop end_ s n last_start r hrun
    · have hdone : shrink_loop end_ (fuel + 1) s i bytes n last_start =
          some { seq := s, mr := ⟨last_start, end_⟩, num_regions_deleted := n } := by
        simp [shrink_loop, hb]
      rw [hdone] at hrun
      exact shrink_post_stop end_ s n last_start r hrun

theorem initialise_valid (shift bottom end_ max_length : Nat) (hmax : max_length < 2 ^ 32) :
    (initialise shift bottom end_ max_length).Valid := by
  refine ⟨⟨le_refl _, Nat.zero_le _, le_refl _⟩, by simp [initialise], hmax, ?_⟩
  intro i hi
  simp [initialise] at hi

theorem valid_activeHandles (s : HeapRegionSeq) (hv : s.Valid) : s.ActiveHandles :=
  fun i hi => hv.2.2.2 i (lt_of_lt_of_le hi hv.1.1)

theorem valid_length_lt (s : HeapRegionSeq) (hv : s.Valid) : s._length < 2 ^ 32 :=
  lt_of_le_of_lt (le_trans hv.1.1 hv.1.2.1) hv.2.2.1

/-- What `shrink_by` guarantees about every result it returns. -/
theorem shrink_by_post (s : HeapRegionSeq) (bytes : Nat) (r : ShrinkResult)
    (hlen : s._length < 2 ^ 32) (htab : s._regions.length < 2 ^ 32)
    (hrun : s.shrink_by bytes = some r) :
    r.seq = { s with _length := r.seq._length, _next_search_index := 0 } ∧
      r.seq._length ≤ s._length ∧
      (∀ j, r.seq._length ≤ j → j < s._length →
        ∃ hr, s.at_ j = some hr ∧ hr.is_empty = true ∧ hr.isHumongous = false) ∧
      r.num_regions_deleted = s._length - r.seq._length ∧
      1 ≤ s._length ∧
      ∃ last, s.at_ (s._length - 1) = some last ∧ r.mr.end_ = last.end_ ∧
        r.mr.start = (if r.seq._length < s._length then
          ((s.at_ r.seq._length).map (fun hr => hr.bottom)).getD last.end_ else last.end_) := by
  unfold shrink_by at hrun
  simp only [length] at hrun
  cases hat : ({ s with _next_search_index := 0 } : HeapRegionSeq).at_
      (u32 (s._length + (2 ^ 32 - 1))) with
  | none => rw [hat] at hrun; cases hrun
  | some hr =>
    rw [hat] at hrun
    simp only at hrun
    obtain ⟨h1, hi⟩ := shrink_index { s with _next_search_index := 0 } _ hlen htab rfl
      (by rw [hat]; rfl)
    obtain ⟨hseq, hle, hall, hnum, hend, hstart⟩ :=
      shrink_loop_post _ _ { s with _next_search_index := 0 } _ _ _ _ r hlen htab
        (by simp; omega) rfl hrun
    simp only [Nat.zero_add] at hseq hle hall hnum hstart hi h1
    refine ⟨hseq, hle, hall, hnum, h1, hr, ?_, hend, hstart⟩
    rw [← hi]; exact hat

theorem expand_by_valid (s : HeapRegionSeq) (factory : Nat → Nat → Option HeapRegion)
    (old_end new_end : Nat) (list : FreeRegionList) (r : ExpandResult) (hv : s.Valid)
    (hrun : s.expand_by factory old_end new_end list = some r) : r.seq.Valid :=
  (expand_loop_post factory old_end new_end _ s old_end list [] r hv hrun).1

theorem shrink_by_valid (s : HeapRegionSeq) (bytes : Nat) (r : ShrinkResult) (hv : s.Valid)
    (hrun : s.shrink_by bytes = some r) : r.seq.Valid := by
  obtain ⟨⟨hb1, hb2, hb3⟩, htab, hmax, hslots⟩ := hv
  obtain ⟨hseq, hle, _⟩ := shrink_by_post s bytes r (by omega) (by omega) hrun
  rw [hseq]
  exact ⟨⟨by simp; omega, hb2, by simp⟩, htab, hmax, hslots⟩

theorem find_contiguous_valid (s : HeapRegionSeq) (num : Nat) (p : Nat × HeapRegionSeq)
    (hv : s.Valid) (hnum : 2 ≤ num) (hnum32 : num < 2 ^ 32)
    (hrun : s.find_contiguous num = some p) : p.2.Valid := by
  obtain ⟨res, hres, _, hisrun⟩ := find_contiguous_correct s num (valid_length_lt s hv) hnum32
    (valid_activeHandles s hv) hv.1.2.2 hnum
  rw [hres] at hrun
  cases hrun
  by_cases hn : res = G1_NULL_HRS_INDEX
  · simpa [hn] using hv
  · obtain ⟨⟨hb1, hb2, hb3⟩, htab, hmax, hslots⟩ := hv
    simp only [hn, ne_eq, not_false_eq_true, if_true]
    exact ⟨⟨hb1, hb2, (hisrun hn).1⟩, htab, hmax, hslots⟩

theorem step_valid (s s1 : HeapRegionSeq) (op : Op) (hv : s.Valid) (hstep : s.step op = some s1) :
    s1.Valid := by
  cases op with
  | expand factory old_end new_end list =>
    simp only [step] at hstep
    split at hstep
    · cases hr : s.expand_by factory old_end new_end list with
      | none => rw [hr] at hstep; cases hstep
      | some r =>
        rw [hr] at hstep; cases hstep
        exact expand_by_valid s factory old_end new_end list r hv hr
    · cases hstep
  | shrink bytes =>
    simp only [step] at hstep
    split at hstep
    · cases hr : s.shrink_by bytes with
      | none => rw [hr] at hstep; cases hstep
      | some r =>
        rw [hr] at hstep; cases hstep
        exact shrink_by_valid s bytes r hv hr
    · cases hstep
  | find num =>
    simp only [step] at hstep
    split at hstep
    · rename_i hpre
      cases hr : s.find_contiguous num with
      | none => rw [hr] at hstep; cases hstep
      | some p =>
        rw [hr] at hstep; cases hstep
        exact find_contiguous_valid s num p hv hpre.1 hpre.2 hr
    · cases hstep
  | update index hr =>
    simp only [step] at hstep
    split at hstep
    · cases hstep
      obtain ⟨hb, htab, hmax, hslots⟩ := hv
      refine ⟨hb, by simpa using htab, hmax, ?_⟩
      intro i hi
      by_cases hii : index = i
      · subst hii
        have hlt := at_lt_length s index (hslots index hi)
        simp [at_, List.getElem?_set_self hlt]
      · have := hslots i hi
        simpa [at_, List.getElem?_set_ne hii] using this
    · cases hstep

theorem run_valid (ops : List Op) : ∀ (s s1 : HeapRegionSeq), s.Valid → s.run ops = some s1 →
    s1.Valid := by
  induction ops with
  | nil => intro s s1 hv h; simp [run] at h; exact h ▸ hv
  | cons op ops ih =>
    intro s s1 hv h
    simp only [run] at h
    cases hs : s.step op with
    | none => rw [hs] at h; cases h
    | some s2 =>
      rw [hs] at h
      exact ih s2 s1 (step_valid s s2 op hv hs) h

/-- C4. Starting from the state produced by `initialize` (with `max_length` a
`uint`), the state after any finite sequence of `expand_by`, `shrink_by` and
`find_contiguous` calls that meet their preconditions, interleaved with any
changes the owner makes to committed regions, satisfies
`length <= allocated_length <= max_length` and `next_search_index <= length`;
every prefix of a sequence is a sequence, so this holds after every call. -/
theorem bounds_invariant (shift bottom end_ max_length : Nat) (ops : List Op)
    (s : HeapRegionSeq) (hmax : max_length < 2 ^ 32)
    (hrun : (initialise shift bottom end_ max_length).run ops = some s) :
    s._length ≤ s._allocated_length ∧ s._allocated_length ≤ s._max_length ∧
      s._next_search_index ≤ s._length :=
  (run_valid ops _ s (initialise_valid shift bottom end_ max_length hmax) hrun).1

/-- Witness for C4: the sample calls run from the initial state of a heap of
eight regions, ending with four active and five committed regions. -/
theorem bounds_invariant_witness :
    8 < 2 ^ 32 ∧ (initialise 3 16 80 8).run sampleOps = some sampleFinal ∧
    (sampleFinal._length ≤ sampleFinal._allocated_length ∧
      sampleFinal._allocated_length ≤ sampleFinal._max_length ∧
      sampleFinal._next_search_index ≤ sampleFinal._length) :=
  ⟨by decide, by decide,
    bounds_invariant 3 16 80 8 sampleOps sampleFinal (by decide) (by decide)⟩

/-- The loop of `shrink_by` returns whenever an active region at or below `i`
is occupied or humongous. -/
theorem shrink_loop_total (end_ j : Nat) (blk : HeapRegion)
    (hblk : blk.isHumongous = true ∨ blk.is_empty = false) :
    ∀ (fuel : Nat) (s : HeapRegionSeq) (i bytes n last_start : Nat),
      s._length < 2 ^ 32 → i = u32 (s._length + (2 ^ 32 - 1)) →
      j < s._length → s.at_ j = some blk →
      (∀ k, j ≤ k → k < s._length → (s.at_ k).isSome = true) →
      s._length - j ≤ fuel →
      ∃ r, shrink_loop end_ fuel s i bytes n last_start = some r := by
  intro fuel
  induction fuel with
  | zero => intro s i bytes n last_start _ _ hj _ _ hfuel; omega
  | succ fuel ih =>
    intro s i bytes n last_start hlen hi hj hatj hact hfuel
    by_cases hb : bytes > 0
    · have hil : i = s._length - 1 := by rw [hi, u32_pred _ (by omega) hlen]
      obtain ⟨cur, hcur⟩ := Option.isSome_iff_exists.mp (hact i (by omega) (by omega))
      by_cases hh : cur.isHumongous = true
      · exact ⟨{ seq := s, mr := ⟨last_start, end_⟩, num_regions_deleted := n }, by simp [shrink_loop, hb, hcur, hh]⟩
      · by_cases he : cur.is_empty = true
        · have hne : j ≠ i := by
            intro hji
            rw [hji, hcur] at hatj
            cases hatj
            rcases hblk with h | h
            · exact hh h
            · rw [he] at h; cases h
          have hdec : decrement_length s._length = s._length - 1 :=
            u32_pred _ (by omega) hlen
          simp only [shrink_loop, hb, if_true, hcur, hh, he, Bool.not_true, hdec]
          apply ih { s with _length := s._length - 1 }
          · simp; omega
          · rw [hil]
          · simp; omega
          · exact hatj
          · intro k hk1 hk2
            exact hact k hk1 (by simp at hk2; omega)
          · simp; omega
        · have hh2 : cur.isHumongous = false := by simpa using hh
          have he2 : cur.is_empty = false := by simpa using he
          exact ⟨{ seq := s, mr := ⟨last_start, end_⟩, num_regions_deleted := n }, by simp [shrink_loop, hb, hcur, hh2, he2]⟩
    · exact ⟨{ seq := s, mr := ⟨last_start, end_⟩, num_regions_deleted := n }, by simp [shrink_loop, hb]⟩

/-- C5. On a state whose length and table size are `uint` values, for every
byte budget: whatever `shrink_by` returns, only `length` and the search cache
changed, the deactivated regions are the suffix `[length_after,
length_before)` of the old active range, each of them was empty and
non-humongous at the call, and every active region that was occupied or
humongous is still active (the walk never passes the highest such region).
When the active slots hold handles and some active region is occupied or
humongous, `shrink_by` does return, whatever the budget. -/
theorem shrink_by_only_empty (s : HeapRegionSeq) (bytes : Nat)
    (hlen : s._length < 2 ^ 32) (htab : s._regions.length < 2 ^ 32) :
    (∀ r, s.shrink_by bytes = some r →
      r.seq = { s with _length := r.seq._length, _next_search_index := 0 } ∧
      r.seq._length ≤ s._length ∧
      (∀ j, r.seq._length ≤ j → j < s._length →
        ∃ hr, s.at_ j = some hr ∧ hr.is_empty = true ∧ hr.isHumongous = false) ∧
      (∀ j hr, j < s._length → s.at_ j = some hr →
        hr.isHumongous = true ∨ hr.is_empty = false → j < r.seq._length)) ∧
    (s.ActiveHandles →
      (∃ j hr, j < s._length ∧ s.at_ j = some hr ∧
        (hr.isHumongous = true ∨ hr.is_empty = false)) →
      ∃ r, s.shrink_by bytes = some r) := by
  constructor
  · intro r hrun
    obtain ⟨hseq, hle, hall, _⟩ := shrink_by_post s bytes r hlen htab hrun
    refine ⟨hseq, hle, hall, ?_⟩
    intro j hr hj hat hblk
    by_contra hnot
    obtain ⟨x, hx, hx1, hx2⟩ := hall j (by omega) hj
    rw [hat] at hx
    cases hx
    rcases hblk with h | h
    · rw [hx2] at h; cases h
    · rw [hx1] at h; cases h
  · rintro hact ⟨j, blk, hj, hat, hblk⟩
    have hsome := hact (s._length - 1) (by omega)
    obtain ⟨last, hlast⟩ := Option.isSome_iff_exists.mp hsome
    have hi : u32 (s._length + (2 ^ 32 - 1)) = s._length - 1 := u32_pred _ (by omega) hlen
    have hlast0 : ({ s with _next_search_index := 0 } : HeapRegionSeq).at_ (s._length - 1)
        = some last := hlast
    unfold shrink_by
    simp only [length, hi, hlast0]
    exact shrink_loop_total _ j blk hblk _ { s with _next_search_index := 0 } _ _ _ _ hlen
      hi.symm hj hat (fun k _ hk => hact k hk) (by simp; omega)

/-- Witness for C5 on the six-region sample, whose region 3 is occupied. -/
theorem shrink_by_only_empty_witness :
    sampleSeq._length < 2 ^ 32 ∧ sampleSeq._regions.length < 2 ^ 32 ∧
    sampleSeq.shrink_by 800 = some ⟨{ sampleSeq with _length := 4, _next_search_index := 0 },
      ⟨48, 64⟩, 2⟩ ∧
    ((∀ r, sampleSeq.shrink_by 800 = some r →
      r.seq = { sampleSeq with _length := r.seq._length, _next_search_index := 0 } ∧
      r.seq._length ≤ sampleSeq._length ∧
      (∀ j, r.seq._length ≤ j → j < sampleSeq._length →
        ∃ hr, sampleSeq.at_ j = some hr ∧ hr.is_empty = true ∧ hr.isHumongous = false) ∧
      (∀ j hr, j < sampleSeq._length → sampleSeq.at_ j = some hr →
        hr.isHumongous = true ∨ hr.is_empty = false → j < r.seq._length)) ∧
    (sampleSeq.ActiveHandles →
      (∃ j hr, j < sampleSeq._length ∧ sampleSeq.at_ j = some hr ∧
        (hr.isHumongous = true ∨ hr.is_empty = false)) →
      ∃ r, sampleSeq.shrink_by 800 = some r)) :=
  ⟨by decide, by decide, by decide,
    shrink_by_only_empty sampleSeq 800 (by decide) (by decide)⟩

/-- C6. On two active, empty, non-humongous regions of 1 MiB, a state that
satisfies the invariants, `shrink_by` with a budget of 2 MiB (the capacity of
the whole active range) removes both regions, the index-0 region included,
and leaves `length = 0`; with a budget of 3 MiB it goes on to read the table
at index `2^32 - 1`. -/
theorem shrink_by_removes_index_zero :
    twoFree.Valid ∧
    twoFree.shrink_by 2097152 =
      some ⟨{ twoFree with _length := 0 }, ⟨1048576, 3145728⟩, 2⟩ ∧
    twoFree.shrink_by 3145728 = none := by
  decide

theorem last_end_succ (s : HeapRegionSeq) (i : Nat) (hr : HeapRegion)
    (h : s.at_ i = some hr) : s.last_end (i + 1) = hr.end_ := by
  simp [last_end, h]

/-- Under the region geometry the loop of `expand_by` activates `k` regions of
`GrainBytes` bytes in `k` turns, as long as the factory succeeds and
`new_end` is not reached earlier. -/
theorem expand_loop_steps (factory : Nat → Nat → Option HeapRegion)
    (old_end new_end GrainBytes : Nat) (hfb : FactoryBuilds factory GrainBytes) :
    ∀ (k fuel : Nat) (s : HeapRegionSeq) (nb : Nat) (list : FreeRegionList)
      (calls : List (Nat × Nat)),
      s.Valid → s.InactiveContiguous GrainBytes → nb = s.last_end s._length →
      s._length + k ≤ s._max_length →
      (∀ i b, s._allocated_length ≤ i → i < s._length + k → (factory i b).isSome = true) →
      (∀ m, m < k → nb + m * GrainBytes < new_end) →
      ∃ s1 list1 calls1,
        expand_loop factory old_end new_end (fuel + k) s nb list calls =
          expand_loop factory old_end new_end fuel s1 (nb + k * GrainBytes) list1 calls1 ∧
        s1.Valid ∧ s1._length = s._length + k ∧
        s1._allocated_length = max s._allocated_length (s._length + k) ∧
        s1._max_length = s._max_length ∧ s1._next_search_index = s._next_search_index ∧
        (∀ i, s1._allocated_length ≤ i → s1._regions[i]? = s._regions[i]?) := by
  intro k
  induction k with
  | zero =>
    intro fuel s nb list calls hv _ _ _ _ _
    exact ⟨s, list, calls, by simp, hv, rfl, by simp [max_eq_left hv.1.1], rfl, rfl,
      fun _ _ => rfl⟩
  | succ k ih =>
    intro fuel s nb list calls hv hcont hnb hroom hsucc hmore
    have hc : nb < new_end := by simpa using hmore 0 (by omega)
    obtain ⟨⟨hb1, hb2, hb3⟩, htab, hmax, hslots⟩ := hv
    have h32 : s._length + 1 < 2 ^ 32 := by omega
    have hmore2 : ∀ m, m < k → nb + GrainBytes + m * GrainBytes < new_end := by
      intro m hm
      have := hmore (m + 1) (by omega)
      rw [Nat.add_mul, Nat.one_mul] at this
      omega
    have hfuel : fuel + (k + 1) = (fuel + k) + 1 := rfl
    have hnbk : nb + (k + 1) * GrainBytes = nb + GrainBytes + k * GrainBytes := by
      rw [Nat.add_mul, Nat.one_mul]; omega
    rw [hfuel, hnbk]
    by_cases halloc : s._length = s._allocated_length
    · -- a new handle is requested from the factory
      obtain ⟨hr, hf⟩ := Option.isSome_iff_exists.mp
        (hsucc s._length nb (by omega) (by omega))
      obtain ⟨_, hbot, hend⟩ := hfb _ _ _ hf
      have hidx : s._length < s._regions.length := by omega
      rw [expand_loop_alloc _ _ _ _ _ _ _ _ hr hc halloc hf hidx h32, hend]
      have hat2 : ({ s with _regions := s._regions.set s._length (some hr),
                            _allocated_length := s._allocated_length + 1,
                            _length := s._length + 1 } : HeapRegionSeq).at_ s._length
          = some hr := by
        simp [at_, List.getElem?_set_self hidx]
      have hv2 : ({ s with _regions := s._regions.set s._length (some hr),
                           _allocated_length := s._allocated_length + 1,
                           _length := s._length + 1 } : HeapRegionSeq).Valid := by
        refine ⟨⟨by simp; omega, by simp; omega, by simp; omega⟩, by simpa using htab,
          hmax, ?_⟩
        intro i hi
        simp only at hi
        by_cases hil : i = s._length
        · subst hil
          simp [at_, List.getElem?_set_self hidx]
        · have := hslots i (by omega)
          simpa [at_, List.getElem?_set_ne (Ne.symm hil)] using this
      obtain ⟨s1, list1, calls1, hrun, hv1, hl1, ha1, hm1, hn1, hs1⟩ :=
        ih fuel _ (nb + GrainBytes) (list ++ [hr]) (calls ++ [(s._length, nb)]) hv2
          (by intro i h1 h2; simp only at h1 h2; omega)
          (by rw [last_end_succ _ _ _ hat2, hend])
          (by simp only; omega)
          (by intro i b h1 h2; simp only at h1 h2; exact hsucc i b (by omega) (by omega))
          hmore2
      simp only at hl1 ha1 hm1 hn1 hs1
      refine ⟨s1, list1, calls1, hrun, hv1, by omega, by omega, hm1, hn1, ?_⟩
      intro i hi
      have hne : s._length ≠ i := by omega
      rw [hs1 i hi, List.getElem?_set_ne hne]
    · -- a committed handle is reused
      have hlt : s._length < s._allocated_length := by omega
      obtain ⟨hr, hat, hbot, hend⟩ := hcont s._length (le_refl _) hlt
      rw [expand_loop_reuse _ _ _ _ _ _ _ _ hr hc halloc hat h32, hend, hbot, ← hnb]
      have hv2 : ({ s with _length := s._length + 1 } : HeapRegionSeq).Valid :=
        ⟨⟨by simp; omega, hb2, by simp; omega⟩, htab, hmax, hslots⟩
      have hat2 : ({ s with _length := s._length + 1 } : HeapRegionSeq).at_ s._length
          = some hr := hat
      obtain ⟨s1, list1, calls1, hrun, hv1, hl1, ha1, hm1, hn1, hs1⟩ :=
        ih fuel _ (nb + GrainBytes) (list ++ [hr]) calls hv2
          (by intro i h1 h2; simp only at h1 h2; exact hcont i (by omega) h2)
          (by rw [last_end_succ _ _ _ hat2, hend, hbot, ← hnb])
          (by simp only; omega)
          (by intro i b h1 h2; simp only at h1 h2; exact hsucc i b h1 (by omega))
          hmore2
      simp only at hl1 ha1 hm1 hn1 hs1
      exact ⟨s1, list1, calls1, hrun, hv1, by omega, by omega, hm1, hn1, hs1⟩

theorem sampleFactory_builds : FactoryBuilds sampleFactory 8 := by
  intro i b hr h
  simp only [sampleFactory, mkRegion, Option.some.injEq] at h
  subst h
  exact ⟨rfl, rfl, rfl⟩

theorem failingFactory_builds : FactoryBuilds failingFactory 8 := by
  intro i b hr h
  unfold failingFactory at h
  split at h
  · exact sampleFactory_builds i b hr h
  · cases h

/-- C7. From a state whose table and counters agree: an expansion asks the
factory for consecutive indices starting at `allocated_length` (each request
is for the index `allocated_length` has at that moment), one request per
newly committed handle when the factory never fails, and `allocated_length`
after it is `max(allocated_length_before, length_after)`.
When that expansion is followed by a shrink and by a second expansion (with
a factory that never fails) that brings `length` back to at most the length
reached by the first, the second expansion makes no factory request, leaves
`allocated_length` unchanged and leaves the table as the first expansion
left it. -/
theorem expand_by_reuses_handles (s0 : HeapRegionSeq)
    (f1 f2 : Nat → Nat → Option HeapRegion) (old_end1 new_end1 old_end2 new_end2 bytes : Nat)
    (list1 list2 : FreeRegionList) (r1 r3 : ExpandResult) (r2 : ShrinkResult)
    (hv : s0.Valid)
    (hnf2 : ∀ i b, (f2 i b).isSome = true)
    (h1 : s0.expand_by f1 old_end1 new_end1 list1 = some r1)
    (h2 : r1.seq.shrink_by bytes = some r2)
    (h3 : r2.seq.expand_by f2 old_end2 new_end2 list2 = some r3)
    (hback : r3.seq._length ≤ r1.seq._length) :
    (r1.factory_calls.map Prod.fst =
        List.range' s0._allocated_length r1.factory_calls.length ∧
      ((∀ i b, (f1 i b).isSome = true) →
        r1.factory_calls.length = r1.seq._allocated_length - s0._allocated_length) ∧
      r1.seq._allocated_length = max s0._allocated_length r1.seq._length) ∧
    (r3.factory_calls = [] ∧ r3.seq._allocated_length = r2.seq._allocated_length ∧
      r3.seq._allocated_length = r1.seq._allocated_length ∧
      r3.seq._regions = r1.seq._regions) := by
  obtain ⟨hv1, _, _, hmx1, _, _, ⟨extra1, hex1, hex2, hex3⟩, _⟩ :=
    expand_loop_post f1 old_end1 new_end1 _ s0 old_end1 list1 [] r1 hv h1
  have hv1' := hv1
  obtain ⟨⟨hb1, hb2, _⟩, htab1, hmax1, _⟩ := hv1'
  obtain ⟨hseq2, hle2, _⟩ := shrink_by_post r1.seq bytes r2 (by omega) (by omega) h2
  have hv2 := shrink_by_valid r1.seq bytes r2 hv1 h2
  have ha2 : r2.seq._allocated_length = r1.seq._allocated_length := by rw [hseq2]
  have ht2 : r2.seq._regions = r1.seq._regions := by rw [hseq2]
  obtain ⟨_, _, _, hmx3, hsame3, _, ⟨extra3, hey1, _, hey3⟩, _⟩ :=
    expand_loop_post f2 old_end2 new_end2 _ r2.seq old_end2 list2 [] r3 hv2 h3
  have ha3 : r3.seq._allocated_length = r2.seq._allocated_length := by
    rw [hmx3, ha2]; omega
  refine ⟨⟨?_, ?_, hmx1⟩, ?_, ha3, ha3.trans ha2, ?_⟩
  · rw [hex1, List.nil_append, hex2]
  · intro hnf1
    rw [hex1, List.nil_append, hex3 hnf1]
  · have hlen := hey3 hnf2
    rw [ha3, Nat.sub_self] at hlen
    rw [hey1, List.nil_append]
    exact List.length_eq_zero.mp hlen
  · rw [← ht2]
    apply List.ext_getElem?
    intro i
    apply hsame3
    rw [ha3]
    exact Nat.lt_or_ge i _

/-- Witness for C7: the sample heap is grown from empty to five regions,
shrunk by two regions, and grown back to five. -/
theorem expand_by_reuses_handles_witness :
    ((initialise 3 16 80 8).Valid ∧
      (initialise 3 16 80 8).expand_by sampleFactory 16 56 [] =
        some ⟨sampleState 5 5, sampleRegions 0 5, ⟨16, 56⟩,
          [(0, 16), (1, 24), (2, 32), (3, 40), (4, 48)]⟩ ∧
      (sampleState 5 5).shrink_by 16 = some ⟨sampleState 3 5, ⟨40, 56⟩, 2⟩ ∧
      (sampleState 3 5).expand_by sampleFactory 40 56 [] =
        some ⟨sampleState 5 5, sampleRegions 3 2, ⟨40, 56⟩, []⟩) ∧
    (([(0, 16), (1, 24), (2, 32), (3, 40), (4, 48)] : List (Nat × Nat)).map Prod.fst =
        List.range' (initialise 3 16 80 8)._allocated_length
          ([(0, 16), (1, 24), (2, 32), (3, 40), (4, 48)] : List (Nat × Nat)).length ∧
      ((∀ i b, (sampleFactory i b).isSome = true) →
        ([(0, 16), (1, 24), (2, 32), (3, 40), (4, 48)] : List (Nat × Nat)).length =
          (sampleState 5 5)._allocated_length - (initialise 3 16 80 8)._allocated_length) ∧
      (sampleState 5 5)._allocated_length =
        max (initialise 3 16 80 8)._allocated_length (sampleState 5 5)._length) ∧
    (([] : List (Nat × Nat)) = [] ∧
      (sampleState 5 5)._allocated_length = (sampleState 3 5)._allocated_length ∧
      (sampleState 5 5)._allocated_length = (sampleState 5 5)._allocated_length ∧
      (sampleState 5 5)._regions = (sampleState 5 5)._regions) :=
  ⟨⟨by decide, by decide, by decide, by decide⟩,
    expand_by_reuses_handles (initialise 3 16 80 8) sampleFactory sampleFactory 16 56 40 56 16
      [] [] ⟨sampleState 5 5, sampleRegions 0 5, ⟨16, 56⟩,
        [(0, 16), (1, 24), (2, 32), (3, 40), (4, 48)]⟩
      ⟨sampleState 5 5, sampleRegions 3 2, ⟨40, 56⟩, []⟩ ⟨sampleState 3 5, ⟨40, 56⟩, 2⟩
      (by decide) (fun _ _ => rfl) (by decide) (by decide) (by decide) (by decide)⟩

theorem mul_lt_of_lt (G m k : Nat) (hG : 0 < G) (h : m < k) : m * G < k * G :=
  Nat.mul_lt_mul_of_pos_right h hG

/-- C9. From a state whose table and counters agree and whose committed
inactive regions are laid out contiguously with region size `GrainBytes`,
with a factory that never fails and builds regions of that size: if
`old_end` is the end of the last active region (`heap_bottom` when
`length = 0`), `new_end = old_end + k * GrainBytes` (for `k >= 1` as the
claim has it, and for `k = 0` as well) and `length + k <= max_length`, then `expand_by` returns the range
`[old_end, new_end)`, `length` grows by exactly `k`, and the destination
list is extended at its tail by the regions at indices `length_before, ...,
length_before + k - 1`, in that order. -/
theorem expand_by_grows (s : HeapRegionSeq) (factory : Nat → Nat → Option HeapRegion)
    (GrainBytes old_end new_end k : Nat) (list : FreeRegionList)
    (hv : s.Valid) (hcont : s.InactiveContiguous GrainBytes)
    (hfb : FactoryBuilds factory GrainBytes) (hnf : ∀ i b, (factory i b).isSome = true)
    (hG : 0 < GrainBytes) (hold : old_end = s.last_end s._length)
    (hnew : new_end = old_end + k * GrainBytes) (hroom : s._length + k ≤ s._max_length) :
    ∃ r, s.expand_by factory old_end new_end list = some r ∧
      r.mr = ⟨old_end, new_end⟩ ∧ r.seq._length = s._length + k ∧
      ∃ added, r.list = list ++ added ∧ added.length = k ∧
        added.map some = (List.range' s._length k).map r.seq.at_ := by
  have htab : s._regions.length = s._max_length := hv.2.1
  have hfuel : s._regions.length + 1 = (s._regions.length + 1 - k) + k := by omega
  obtain ⟨s1, list1, calls1, hrun, hv1, hl1, _⟩ :=
    expand_loop_steps factory old_end new_end GrainBytes hfb k (s._regions.length + 1 - k)
      s old_end list [] hv hcont hold hroom (fun i b _ _ => hnf i b)
      (fun m hm => by rw [hnew]; have := mul_lt_of_lt GrainBytes m k hG hm; omega)
  have hdone := expand_loop_done factory old_end new_end (s._regions.length + 1 - k) s1
    (old_end + k * GrainBytes) list1 calls1 (by omega)
  have hres : s.expand_by factory old_end new_end list =
      some { seq := s1, list := list1, mr := ⟨old_end, old_end + k * GrainBytes⟩,
             factory_calls := calls1 } := by
    unfold expand_by
    rw [hfuel, hrun, hdone]
  obtain ⟨_, _, _, _, _, _, _, ⟨added, had1, had2, _⟩⟩ :=
    expand_loop_post factory old_end new_end _ s old_end list [] _ hv hres
  simp only [hl1, Nat.add_sub_cancel_left] at had2
  refine ⟨_, hres, by rw [hnew], hl1, added, had1, ?_, had2⟩
  have := congrArg List.length had2
  simpa using this

/-- Witness for C9: the sample heap with one active and two committed regions
grows by three regions, reusing one handle and building two. -/
theorem expand_by_grows_witness :
    ((sampleState 1 2).Valid ∧ (24 : Nat) = (sampleState 1 2).last_end (sampleState 1 2)._length ∧
      (48 : Nat) = 24 + 3 * 8 ∧ (sampleState 1 2)._length + 3 ≤ (sampleState 1 2)._max_length) ∧
    (sampleState 1 2).expand_by sampleFactory 24 48 [] =
      some ⟨sampleState 4 4, sampleRegions 1 3, ⟨24, 48⟩, [(2, 32), (3, 40)]⟩ ∧
    ∃ r, (sampleState 1 2).expand_by sampleFactory 24 48 [] = some r ∧
      r.mr = ⟨24, 48⟩ ∧ r.seq._length = (sampleState 1 2)._length + 3 ∧
      ∃ added, r.list = [] ++ added ∧ added.length = 3 ∧
        added.map some = (List.range' (sampleState 1 2)._length 3).map r.seq.at_ :=
  ⟨⟨by decide, by decide, by decide, by decide⟩, by decide,
    expand_by_grows (sampleState 1 2) sampleFactory 8 24 48 3 [] (by decide)
      (by
        intro i h1 h2
        have hi : i = 1 := by
          have h1' : 1 ≤ i := h1
          have h2' : i < 2 := h2
          omega
        subst hi
        exact ⟨mkRegion 1 24 32 true, by decide, by decide, by decide⟩)
      sampleFactory_builds (fun _ _ => rfl) (by decide) (by decide) (by decide) (by decide)⟩

/-- C8. From a state whose table and counters agree, whose uncommitted slots
are null and whose committed inactive regions are laid out contiguously with
region size `GrainBytes`, with a factory that builds regions of that size:
if `old_end` is the end of the last active region, the factory succeeds for
every index below `length + j` and fails at index `length + j`, which the
expansion reaches (`allocated_length <= length + j < max_length` and
`old_end + j * GrainBytes < new_end`), then `expand_by` returns the range
`[old_end, old_end + j * GrainBytes)`, `length` has grown by exactly `j`, the
list has received exactly the `j` regions at indices `length_before, ...,
length_before + j - 1`, the last factory request is the failed one,
`allocated_length` is the failed index, that table slot is still null, and
`length <= allocated_length <= max_length` and `next_search_index <= length`
hold. -/
theorem expand_by_stops_on_failure (s : HeapRegionSeq)
    (factory : Nat → Nat → Option HeapRegion)
    (GrainBytes old_end new_end j : Nat) (list : FreeRegionList)
    (hv : s.Valid) (hnull : s.UncommittedNull) (hcont : s.InactiveContiguous GrainBytes)
    (hfb : FactoryBuilds factory GrainBytes)
    (hold : old_end = s.last_end s._length)
    (hreach : s._allocated_length ≤ s._length + j)
    (hsucc : ∀ i b, i < s._length + j → (factory i b).isSome = true)
    (hfail : factory (s._length + j) (old_end + j * GrainBytes) = none)
    (hmore : old_end + j * GrainBytes < new_end)
    (hroom : s._length + j < s._max_length) :
    ∃ r, s.expand_by factory old_end new_end list = some r ∧
      r.mr = ⟨old_end, old_end + j * GrainBytes⟩ ∧ r.seq._length = s._length + j ∧
      (∃ added, r.list = list ++ added ∧ added.length = j ∧
        added.map some = (List.range' s._length j).map r.seq.at_) ∧
      (∃ before, r.factory_calls = before ++ [(s._length + j, old_end + j * GrainBytes)]) ∧
      r.seq._allocated_length = s._length + j ∧
      r.seq._regions[s._length + j]? = some none ∧
      r.seq.Bounds := by
  have htab : s._regions.length = s._max_length := hv.2.1
  have hfuel : s._regions.length + 1 = ((s._regions.length - j) + 1) + j := by omega
  obtain ⟨s1, list1, calls1, hrun, hv1, hl1, ha1, hm1, _, hs1⟩ :=
    expand_loop_steps factory old_end new_end GrainBytes hfb j ((s._regions.length - j) + 1)
      s old_end list [] hv hcont hold (by omega) (fun i b _ h => hsucc i b h)
      (fun m hm => by
        have := Nat.mul_le_mul_right GrainBytes (Nat.le_of_lt hm)
        omega)
  have ha1' : s1._allocated_length = s._length + j := by rw [ha1]; omega
  have hstop := expand_loop_fail factory old_end new_end (s._regions.length - j) s1
    (old_end + j * GrainBytes) list1 calls1 hmore (by rw [hl1, ha1'])
    (by rw [hl1]; exact hfail)
  have hres : s.expand_by factory old_end new_end list =
      some { seq := s1, list := list1, mr := ⟨old_end, old_end + j * GrainBytes⟩,
             factory_calls := calls1 ++ [(s1._length, old_end + j * GrainBytes)] } := by
    unfold expand_by
    rw [hfuel, hrun, hstop]
  obtain ⟨_, _, _, _, _, _, _, ⟨added, had1, had2, _⟩⟩ :=
    expand_loop_post factory old_end new_end _ s old_end list [] _ hv hres
  simp only [hl1, Nat.add_sub_cancel_left] at had2
  refine ⟨_, hres, rfl, hl1, ⟨added, had1, ?_, had2⟩, ⟨calls1, by simp only [hl1]⟩, ha1', ?_,
    hv1.1⟩
  · have := congrArg List.length had2
    simpa using this
  · show s1._regions[s._length + j]? = some none
    rw [hs1 _ (by omega)]
    exact hnull _ hreach hroom

/-- Witness for C8: on the sample heap with one active and two committed
regions the factory fails at index 3, after two regions were activated. -/
theorem expand_by_stops_on_failure_witness :
    ((sampleState 1 2).Valid ∧ (sampleState 1 2).UncommittedNull ∧
      (24 : Nat) = (sampleState 1 2).last_end (sampleState 1 2)._length ∧
      (sampleState 1 2)._allocated_length ≤ (sampleState 1 2)._length + 2 ∧
      failingFactory ((sampleState 1 2)._length + 2) (24 + 2 * 8) = none ∧
      24 + 2 * 8 < 72 ∧ (sampleState 1 2)._length + 2 < (sampleState 1 2)._max_length) ∧
    (sampleState 1 2).expand_by failingFactory 24 72 [] =
      some ⟨sampleState 3 3, sampleRegions 1 2, ⟨24, 40⟩, [(2, 32), (3, 40)]⟩ ∧
    ∃ r, (sampleState 1 2).expand_by failingFactory 24 72 [] = some r ∧
      r.mr = ⟨24, 24 + 2 * 8⟩ ∧ r.seq._length = (sampleState 1 2)._length + 2 ∧
      (∃ added, r.list = [] ++ added ∧ added.length = 2 ∧
        added.map some = (List.range' (sampleState 1 2)._length 2).map r.seq.at_) ∧
      (∃ before, r.factory_calls = before ++ [((sampleState 1 2)._length + 2, 24 + 2 * 8)]) ∧
      r.seq._allocated_length = (sampleState 1 2)._length + 2 ∧
      r.seq._regions[(sampleState 1 2)._length + 2]? = some none ∧
      r.seq.Bounds :=
  ⟨⟨by decide, by decide, by decide, by decide, by decide, by decide, by decide⟩, by decide,
    expand_by_stops_on_failure (sampleState 1 2) failingFactory 8 24 72 2 [] (by decide)
      (by decide)
      (by
        intro i h1 h2
        have hi : i = 1 := by
          have h1' : 1 ≤ i := h1
          have h2' : i < 2 := h2
          omega
        subst hi
        exact ⟨mkRegion 1 24 32 true, by decide, by decide, by decide⟩)
      failingFactory_builds (by decide) (by decide)
      (by
        intro i b h
        have h' : i < 3 := h
        simp [failingFactory, h', sampleFactory])
      (by decide) (by decide) (by decide)⟩

/-- With a visitor that never requests a stop, one loop of `iterate_from`
shows it the regions at `i, i + 1, ..., hi - 1` in that order and runs to its
end. -/
theorem iterate_loop_all {σ : Type} (s : HeapRegionSeq) (blk : HeapRegionClosure σ) (hi : Nat)
    (hhi : hi ≤ s._length) (hlen : s._length < 2 ^ 32) (hact : s.ActiveHandles)
    (hns : ∀ c hr, (blk.doHeapRegion c hr).1 = false) :
    ∀ (fuel i : Nat) (c : σ), hi - i ≤ fuel →
      ∃ rs : List HeapRegion, rs.map some = (List.range' i (hi - i)).map s.at_ ∧
        iterate_loop s blk hi fuel i c =
          some (rs.foldl (fun c hr => (blk.doHeapRegion c hr).2) c, false) := by
  intro fuel
  induction fuel with
  | zero =>
    intro i c hfuel
    have hc : ¬ i < hi := by omega
    have h0 : hi - i = 0 := by omega
    exact ⟨[], by simp [h0], by simp [iterate_loop, hc]⟩
  | succ fuel ih =>
    intro i c hfuel
    by_cases hc : i < hi
    · obtain ⟨hr, hhr⟩ := Option.isSome_iff_exists.mp (hact i (by omega))
      obtain ⟨rs, hrs1, hrs2⟩ := ih (i + 1) (blk.doHeapRegion c hr).2 (by omega)
      refine ⟨hr :: rs, ?_, ?_⟩
      · have hsplit : hi - i = (hi - (i + 1)) + 1 := by omega
        rw [hsplit, List.range'_succ]
        simp [hrs1, hhr]
      · simp [iterate_loop, hc, hhr, hns, u32_of_lt (show i + 1 < 2 ^ 32 by omega), hrs2]
    · have h0 : hi - i = 0 := by omega
      exact ⟨[], by simp [h0], by simp [iterate_loop, hc]⟩

/-- C10. On a state whose active slots hold handles, for a start region whose
index `k` is at most `length` (`k = 0` for the null start region, which is
the call `iterate` makes) and a visitor that never requests a stop,
`iterate_from` returns after showing the visitor the regions at the indices
`k, k + 1, ..., length - 1, 0, 1, ..., k - 1` in that order, and that list of
indices holds every active index exactly once. -/
theorem iterate_from_order {σ : Type} (s : HeapRegionSeq) (hr : Option HeapRegion)
    (blk : HeapRegionClosure σ) (c : σ)
    (hlen : s._length < 2 ^ 32) (hact : s.ActiveHandles)
    (hk : start_index hr ≤ s._length)
    (hns : ∀ c r, (blk.doHeapRegion c r).1 = false) :
    (∃ rs : List HeapRegion,
      rs.map some =
        (List.range' (start_index hr) (s._length - start_index hr)
          ++ List.range (start_index hr)).map s.at_ ∧
      s.iterate_from hr blk c = some (rs.foldl (fun c r => (blk.doHeapRegion c r).2) c)) ∧
    (List.range' (start_index hr) (s._length - start_index hr)
      ++ List.range (start_index hr)).Perm (List.range s._length) ∧
    s.iterate blk c = s.iterate_from none blk c := by
  refine ⟨?_, ?_, rfl⟩
  · obtain ⟨rs1, h11, h12⟩ := iterate_loop_all s blk s._length (le_refl _) hlen hact hns
      (s._length - start_index hr) (start_index hr) c (le_refl _)
    obtain ⟨rs2, h21, h22⟩ := iterate_loop_all s blk (start_index hr) hk hlen hact hns
      (start_index hr) 0 (rs1.foldl (fun c r => (blk.doHeapRegion c r).2) c) (by omega)
    refine ⟨rs1 ++ rs2, ?_, ?_⟩
    · rw [List.map_append, List.map_append, h11, h21, List.range_eq_range']
      simp
    · simp [iterate_from, length, h12, h22]
  · have hsplit : List.range s._length =
        List.range (start_index hr)
          ++ List.range' (start_index hr) (s._length - start_index hr) := by
      have happ := List.range'_append_1 0 (start_index hr) (s._length - start_index hr)
      rw [Nat.zero_add, Nat.sub_add_cancel hk] at happ
      rw [List.range_eq_range', List.range_eq_range', happ]
    rw [hsplit]
    exact List.perm_append_comm

/-- Witness for C10: on the six-region sample, starting from region 2, the
recording visitor is shown the indices 2, 3, 4, 5, 0, 1. -/
theorem iterate_from_order_witness :
    (sampleSeq._length < 2 ^ 32 ∧ sampleSeq.ActiveHandles ∧
      start_index (some (mkRegion 2 32 40 true)) ≤ sampleSeq._length) ∧
    sampleSeq.iterate_from (some (mkRegion 2 32 40 true)) recordAll [] =
      some [2, 3, 4, 5, 0, 1] ∧
    ((∃ rs : List HeapRegion,
      rs.map some =
        (List.range' (start_index (some (mkRegion 2 32 40 true)))
            (sampleSeq._length - start_index (some (mkRegion 2 32 40 true)))
          ++ List.range (start_index (some (mkRegion 2 32 40 true)))).map sampleSeq.at_ ∧
      sampleSeq.iterate_from (some (mkRegion 2 32 40 true)) recordAll [] =
        some (rs.foldl (fun c r => (recordAll.doHeapRegion c r).2) [])) ∧
    (List.range' (start_index (some (mkRegion 2 32 40 true)))
        (sampleSeq._length - start_index (some (mkRegion 2 32 40 true)))
      ++ List.range (start_index (some (mkRegion 2 32 40 true)))).Perm
        (List.range sampleSeq._length) ∧
    sampleSeq.iterate recordAll [] = sampleSeq.iterate_from none recordAll []) :=
  ⟨⟨by decide, by decide, by decide⟩, by decide,
    iterate_from_order sampleSeq (some (mkRegion 2 32 40 true)) recordAll [] (by decide)
      (by decide) (by decide) (fun _ _ => rfl)⟩

/-- The fuel `find_contiguous_from` passes is enough: any two amounts of fuel
of at least `len - curr` give the same result. -/
theorem find_contiguous_loop_fuel (s : HeapRegionSeq) (len num : Nat) (hlen : len < 2 ^ 32) :
    ∀ (fuel1 fuel2 : Nat) (st : FindState), len - st.curr ≤ fuel1 → len - st.curr ≤ fuel2 →
      find_contiguous_loop s len num fuel1 st = find_contiguous_loop s len num fuel2 st := by
  intro fuel1
  induction fuel1 with
  | zero =>
    intro fuel2 st h1 _
    have hc : ¬ (st.curr < len ∧ st.num_so_far < num) := by omega
    cases fuel2 <;> simp [find_contiguous_loop, hc]
  | succ fuel1 ih =>
    intro fuel2 st h1 h2
    by_cases hc : st.curr < len ∧ st.num_so_far < num
    · cases fuel2 with
      | zero => omega
      | succ fuel2 =>
        have hw : u32 (st.curr + 1) = st.curr + 1 := u32_of_lt (by omega)
        simp only [find_contiguous_loop, hc, and_self, if_true, hw]
        cases s.at_ st.curr with
        | none => rfl
        | some hr =>
          simp only
          split
          · split
            · exact ih _ _ (by simp only; omega) (by simp only; omega)
            · exact ih _ _ (by simp only; omega) (by simp only; omega)
          · exact ih _ _ (by simp only; omega) (by simp only; omega)
    · cases fuel2 <;> simp [find_contiguous_loop, hc]

/-- The fuel `shrink_by` passes is enough: any two amounts of fuel of at least
`length + 1` give the same result. -/
theorem shrink_loop_fuel (end_ : Nat) :
    ∀ (fuel1 fuel2 : Nat) (s : HeapRegionSeq) (i bytes n last_start : Nat),
      s._length < 2 ^ 32 → s._regions.length < 2 ^ 32 →
      i = u32 (s._length + (2 ^ 32 - 1)) → s._length + 1 ≤ fuel1 → s._length + 1 ≤ fuel2 →
      shrink_loop end_ fuel1 s i bytes n last_start =
        shrink_loop end_ fuel2 s i bytes n last_start := by
  intro fuel1
  induction fuel1 with
  | zero => intro fuel2 s i bytes n last_start _ _ _ h; omega
  | succ fuel1 ih =>
    intro fuel2 s i bytes n last_start hlen htab hi h1 h2
    cases fuel2 with
    | zero => omega
    | succ fuel2 =>
      by_cases hb : bytes > 0
      · simp only [shrink_loop, hb, if_true]
        cases hcur : s.at_ i with
        | none => rfl
        | some cur =>
          simp only
          split
          · rfl
          · split
            · rfl
            · obtain ⟨hl1, hil⟩ := shrink_index s i hlen htab hi (by simp [hcur])
              have hdec : decrement_length s._length = s._length - 1 := u32_pred _ hl1 hlen
              rw [hdec]
              exact ih _ _ _ _ _ _ (by simp only; omega) htab (by rw [hil])
                (by simp only; omega) (by simp only; omega)
      · simp [shrink_loop, hb]

/-- The fuel `expand_by` passes is enough: on a state whose active range lies
in the table, any two amounts of fuel of at least `_regions.length + 1 -
length` give the same result. -/
theorem expand_loop_fuel (factory : Nat → Nat → Option HeapRegion) (old_end new_end : Nat) :
    ∀ (fuel1 fuel2 : Nat) (s : HeapRegionSeq) (nb : Nat) (list : FreeRegionList)
      (calls : List (Nat × Nat)),
      s._regions.length < 2 ^ 32 → s._length ≤ s._regions.length →
      s._regions.length + 1 - s._length ≤ fuel1 → s._regions.length + 1 - s._length ≤ fuel2 →
      expand_loop factory old_end new_end fuel1 s nb list calls =
        expand_loop factory old_end new_end fuel2 s nb list calls := by
  intro fuel1
  induction fuel1 with
  | zero => intro fuel2 s nb list calls _ _ h; omega
  | succ fuel1 ih =>
    intro fuel2 s nb list calls htab hle h1 h2
    cases fuel2 with
    | zero => omega
    | succ fuel2 =>
      by_cases hc : nb < new_end
      · simp only [expand_loop, hc, if_true, length]
        split
        · split
          · rfl
          · split
            · rename_i hidx
              have hw : increment_length s._length = s._length + 1 := u32_of_lt (by omega)
              simp only [hw]
              split
              · rfl
              · exact ih _ _ _ _ _ (by simpa using htab) (by simp; omega) (by simp; omega)
                  (by simp; omega)
            · rfl
        · split
          · rfl
          · rename_i hr hat
            have hlt : s._length < s._regions.length :=
              at_lt_length { s with _length := increment_length s._length } _
                (by rw [hat]; rfl)
            have hw : increment_length s._length = s._length + 1 := u32_of_lt (by omega)
            simp only [hw]
            exact ih _ _ _ _ _ htab (by simp only; omega) (by simp only; omega)
              (by simp only; omega)
      · simp [expand_loop, hc]

/-- The fuel `iterate_from` passes is enough: any two amounts of fuel of at
least `hi - i` give the same result. -/
theorem iterate_loop_fuel {σ : Type} (s : HeapRegionSeq) (blk : HeapRegionClosure σ) (hi : Nat)
    (hhi : hi < 2 ^ 32) :
    ∀ (fuel1 fuel2 i : Nat) (c : σ), hi - i ≤ fuel1 → hi - i ≤ fuel2 →
      iterate_loop s blk hi fuel1 i c = iterate_loop s blk hi fuel2 i c := by
  intro fuel1
  induction fuel1 with
  | zero =>
    intro fuel2 i c h1 _
    have hc : ¬ i < hi := by omega
    cases fuel2 <;> simp [iterate_loop, hc]
  | succ fuel1 ih =>
    intro fuel2 i c h1 h2
    by_cases hc : i < hi
    · cases fuel2 with
      | zero => omega
      | succ fuel2 =>
        have hw : u32 (i + 1) = i + 1 := u32_of_lt (by omega)
        simp only [iterate_loop, hc, if_true, hw]
        cases s.at_ i with
        | none => rfl
        | some hr =>
          simp only
          split
          · rfl
          · exact ih _ _ _ (by omega) (by omega)
    · cases fuel2 <;> simp [iterate_loop, hc]

/-- One loop of `iterate_from` is a walk with early return over the regions at
`i, i + 1, ..., hi - 1`. -/
theorem iterate_loop_walk {σ : Type} (s : HeapRegionSeq) (blk : HeapRegionClosure σ) (hi : Nat)
    (hhi : hi ≤ s._length) (hlen : s._length < 2 ^ 32) (hact : s.ActiveHandles) :
    ∀ (fuel i : Nat) (c : σ), hi - i ≤ fuel →
      iterate_loop s blk hi fuel i c =
        some (visit_until_stop blk c ((List.range' i (hi - i)).filterMap s.at_)) := by
  intro fuel
  induction fuel with
  | zero =>
    intro i c hfuel
    have hc : ¬ i < hi := by omega
    have h0 : hi - i = 0 := by omega
    simp [iterate_loop, hc, h0, visit_until_stop]
  | succ fuel ih =>
    intro i c hfuel
    by_cases hc : i < hi
    · obtain ⟨hr, hhr⟩ := Option.isSome_iff_exists.mp (hact i (by omega))
      have hsplit : hi - i = (hi - (i + 1)) + 1 := by omega
      have hw : u32 (i + 1) = i + 1 := u32_of_lt (by omega)
      rw [hsplit, List.range'_succ, List.filterMap_cons, hhr]
      simp only [iterate_loop, hc, if_true, hhr, hw, visit_until_stop]
      by_cases hres : (blk.doHeapRegion c hr).1 = true
      · simp [hres]
      · simp only [hres, Bool.false_eq_true, if_false]
        exact ih (i + 1) _ (by omega)
    · have h0 : hi - i = 0 := by omega
      simp [iterate_loop, hc, h0, visit_until_stop]

theorem visit_until_stop_append {σ : Type} (blk : HeapRegionClosure σ) :
    ∀ (rs1 rs2 : List HeapRegion) (c : σ),
      visit_until_stop blk c (rs1 ++ rs2) =
        if (visit_until_stop blk c rs1).2 then visit_until_stop blk c rs1
        else visit_until_stop blk (visit_until_stop blk c rs1).1 rs2 := by
  intro rs1
  induction rs1 with
  | nil => intro rs2 c; simp [visit_until_stop]
  | cons r rs1 ih =>
    intro rs2 c
    simp only [List.cons_append, visit_until_stop]
    by_cases hres : (blk.doHeapRegion c r).1 = true
    · simp [hres]
    · simp only [hres, Bool.false_eq_true, if_false]
      exact ih rs2 _

/-- The function `iterate_from` is a walk with early return over the regions
in wrap-around order. -/
theorem iterate_from_walk {σ : Type} (s : HeapRegionSeq) (hr : Option HeapRegion)
    (blk : HeapRegionClosure σ) (c : σ)
    (hlen : s._length < 2 ^ 32) (hact : s.ActiveHandles)
    (hk : start_index hr ≤ s._length) :
    s.iterate_from hr blk c =
      some (visit_until_stop blk c (s.wrap_order (start_index hr))).1 := by
  have h1 := iterate_loop_walk s blk s._length (le_refl _) hlen hact
    (s._length - start_index hr) (start_index hr) c (le_refl _)
  have h2 := fun c1 => iterate_loop_walk s blk (start_index hr) hk hlen hact
    (start_index hr) 0 c1 (by omega)
  simp only [Nat.sub_zero] at h2
  unfold iterate_from wrap_order
  simp only [length, h1, List.filterMap_append, visit_until_stop_append,
    List.range_eq_range']
  cases hv : visit_until_stop blk c
      (List.filterMap s.at_ (List.range' (start_index hr) (s._length - start_index hr))) with
  | mk c1 b =>
    cases b with
    | true => simp
    | false => simp [h2]

theorem wrap_order_length (s : HeapRegionSeq) (k : Nat) (hact : s.ActiveHandles)
    (hk : k ≤ s._length) : (s.wrap_order k).length = s._length := by
  have hall : ∀ l : List Nat, (∀ i ∈ l, i < s._length) →
      (l.filterMap s.at_).length = l.length := by
    intro l
    induction l with
    | nil => intro _; rfl
    | cons a l ih =>
      intro h
      obtain ⟨x, hx⟩ := Option.isSome_iff_exists.mp (hact a (h a (by simp)))
      rw [List.filterMap_cons, hx]
      simp [ih (fun i hi => h i (by simp [hi]))]
  unfold wrap_order
  rw [hall]
  · simp; omega
  · intro i hi
    simp only [List.mem_append, List.mem_range'_1, List.mem_range] at hi
    omega

/-- A traced visitor that first requests a stop on its `j`-th invocation is
shown the first `j` regions and notified once. -/
theorem visit_until_stop_traced_stop {σ : Type} (blk : HeapRegionClosure σ) :
    ∀ (rs : List HeapRegion) (c : σ) (tr : List HeapRegion) (n j : Nat),
      first_stop blk c rs = some j →
      visit_until_stop (traced blk) (c, tr, n) rs =
        ((blk.incomplete (visit blk c (rs.take j)), tr ++ rs.take j, n + 1), true) ∧
      1 ≤ j ∧ j ≤ rs.length := by
  intro rs
  induction rs with
  | nil => intro c tr n j h; simp [first_stop] at h
  | cons r rs ih =>
    intro c tr n j h
    by_cases hres : (blk.doHeapRegion c r).1 = true
    · simp only [first_stop, hres, if_true, Option.some.injEq] at h
      subst h
      simp [visit_until_stop, traced, hres, visit]
    · simp only [first_stop, hres, Bool.false_eq_true, if_false, Option.map_eq_some'] at h
      obtain ⟨j', hj', rfl⟩ := h
      obtain ⟨h1, h2, h3⟩ := ih (blk.doHeapRegion c r).2 (tr ++ [r]) n j' hj'
      have hres' : (blk.doHeapRegion c r).1 = false := by simpa using hres
      refine ⟨?_, by omega, by simp; omega⟩
      simp only [visit_until_stop, traced, hres', Bool.false_eq_true, if_false]
      have h1' := h1
      simp only [traced] at h1'
      rw [h1']
      simp [visit, List.take_succ_cons]

/-- A traced visitor that never requests a stop is shown every region and
never notified. -/
theorem visit_until_stop_traced_all {σ : Type} (blk : HeapRegionClosure σ) :
    ∀ (rs : List HeapRegion) (c : σ) (tr : List HeapRegion) (n : Nat),
      first_stop blk c rs = none →
      visit_until_stop (traced blk) (c, tr, n) rs = ((visit blk c rs, tr ++ rs, n), false) := by
  intro rs
  induction rs with
  | nil => intro c tr n _; simp [visit_until_stop, visit]
  | cons r rs ih =>
    intro c tr n h
    by_cases hres : (blk.doHeapRegion c r).1 = true
    · simp [first_stop, hres] at h
    · simp only [first_stop, hres, Bool.false_eq_true, if_false, Option.map_eq_none'] at h
      have hres' : (blk.doHeapRegion c r).1 = false := by simpa using hres
      have h1 := ih (blk.doHeapRegion c r).2 (tr ++ [r]) n h
      simp only [visit_until_stop, traced, hres', Bool.false_eq_true, if_false]
      simp only [traced] at h1
      rw [h1]
      simp [visit]

/-- C11. On a state whose active slots hold handles and for a start index
`k <= length`: a visitor that first requests a stop on its `j`-th invocation
along the wrap-around order is invoked exactly on the first `j` regions of
that order (`1 <= j <= length`, before or after the wrap) and is notified
`incomplete` exactly once; a visitor that never requests a stop is invoked
on all `length` regions of the order and is never notified. -/
theorem iterate_from_early_stop {σ τ : Type} (s : HeapRegionSeq) (hr : Option HeapRegion)
    (blk : HeapRegionClosure σ) (c : σ) (j : Nat) (blk0 : HeapRegionClosure τ) (c0 : τ)
    (hlen : s._length < 2 ^ 32) (hact : s.ActiveHandles)
    (hk : start_index hr ≤ s._length)
    (hstop : first_stop blk c (s.wrap_order (start_index hr)) = some j)
    (hnever : first_stop blk0 c0 (s.wrap_order (start_index hr)) = none) :
    (s.iterate_from hr (traced blk) (c, [], 0) =
        some (blk.incomplete (visit blk c ((s.wrap_order (start_index hr)).take j)),
          (s.wrap_order (start_index hr)).take j, 1) ∧
      ((s.wrap_order (start_index hr)).take j).length = j ∧ 1 ≤ j ∧ j ≤ s._length) ∧
    (s.iterate_from hr (traced blk0) (c0, [], 0) =
        some (visit blk0 c0 (s.wrap_order (start_index hr)),
          s.wrap_order (start_index hr), 0) ∧
      (s.wrap_order (start_index hr)).length = s._length) := by
  have hwl := wrap_order_length s (start_index hr) hact hk
  obtain ⟨h1, h2, h3⟩ :=
    visit_until_stop_traced_stop blk (s.wrap_order (start_index hr)) c [] 0 j hstop
  have h4 := visit_until_stop_traced_all blk0 (s.wrap_order (start_index hr)) c0 [] 0 hnever
  refine ⟨⟨?_, ?_, h2, by omega⟩, ?_, hwl⟩
  · rw [iterate_from_walk s hr (traced blk) _ hlen hact hk, h1]
    simp
  · rw [List.length_take]; omega
  · rw [iterate_from_walk s hr (traced blk0) _ hlen hact hk, h4]
    simp

/-- Witness for C11: on the six-region sample, starting from region 4, a
visitor that stops on its third invocation is shown regions 4, 5 and 0 (the
stop falls after the wrap), and the recording visitor is shown all six. -/
theorem iterate_from_early_stop_witness :
    (sampleSeq._length < 2 ^ 32 ∧ sampleSeq.ActiveHandles ∧
      start_index (some (mkRegion 4 48 56 true)) ≤ sampleSeq._length ∧
      first_stop stopAtThird 0
        (sampleSeq.wrap_order (start_index (some (mkRegion 4 48 56 true)))) = some 3 ∧
      first_stop recordAll []
        (sampleSeq.wrap_order (start_index (some (mkRegion 4 48 56 true)))) = none) ∧
    (sampleSeq.iterate_from (some (mkRegion 4 48 56 true)) (traced stopAtThird) (0, [], 0)).map
        (fun c => (c.1, c.2.1.map (fun r => r.hrs_index), c.2.2)) = some (3, [4, 5, 0], 1) ∧
    ((sampleSeq.iterate_from (some (mkRegion 4 48 56 true)) (traced stopAtThird) (0, [], 0) =
        some (stopAtThird.incomplete (visit stopAtThird 0
            ((sampleSeq.wrap_order (start_index (some (mkRegion 4 48 56 true)))).take 3)),
          (sampleSeq.wrap_order (start_index (some (mkRegion 4 48 56 true)))).take 3, 1) ∧
      ((sampleSeq.wrap_order (start_index (some (mkRegion 4 48 56 true)))).take 3).length = 3 ∧
      1 ≤ 3 ∧ 3 ≤ sampleSeq._length) ∧
    (sampleSeq.iterate_from (some (mkRegion 4 48 56 true)) (traced recordAll) ([], [], 0) =
        some (visit recordAll []
            (sampleSeq.wrap_order (start_index (some (mkRegion 4 48 56 true)))),
          sampleSeq.wrap_order (start_index (some (mkRegion 4 48 56 true))), 0) ∧
      (sampleSeq.wrap_order (start_index (some (mkRegion 4 48 56 true)))).length =
        sampleSeq._length)) :=
  ⟨⟨by decide, by decide, by decide, by decide, by decide⟩, by decide,
    iterate_from_early_stop sampleSeq (some (mkRegion 4 48 56 true)) stopAtThird 0 3
      recordAll [] (by decide) (by decide) (by decide) (by decide) (by decide)⟩

/-- C12. After `initialize` with `heap_bottom` a multiple of the region size
`2 ^ region_shift`, for every address `a` with `heap_bottom <= a < heap_end`:
the biased index of `a` is at least the bias, the index
`(a >> region_shift) - (heap_bottom >> region_shift)` equals
`(a - heap_bottom) / 2 ^ region_shift`, it is the index of the region whose
range contains `a`, `heap_bottom` maps to index 0, and the index is below
`max_length` when `heap_end - heap_bottom = max_length * 2 ^ region_shift`. -/
theorem addr_to_index_floor (shift bottom end_ max_length a : Nat)
    (halign : 2 ^ shift ∣ bottom) (hlo : bottom ≤ a) (hhi : a < end_) :
    (initialise shift bottom end_ max_length).regions_bias ≤
      (initialise shift bottom end_ max_length).addr_to_index_biased a ∧
    (initialise shift bottom end_ max_length).addr_to_index a = (a - bottom) / 2 ^ shift ∧
    (bottom + (initialise shift bottom end_ max_length).addr_to_index a * 2 ^ shift ≤ a ∧
      a < bottom + ((initialise shift bottom end_ max_length).addr_to_index a + 1) * 2 ^ shift) ∧
    (initialise shift bottom end_ max_length).addr_to_index bottom = 0 ∧
    (end_ - bottom = max_length * 2 ^ shift →
      (initialise shift bottom end_ max_length).addr_to_index a < max_length) := by
  have hpos : 0 < 2 ^ shift := Nat.two_pow_pos shift
  obtain ⟨q, hq⟩ := halign
  simp only [addr_to_index, addr_to_index_biased, regions_bias, initialise,
    Nat.shiftRight_eq_div_pow]
  generalize 2 ^ shift = G at hpos hq ⊢
  have hb : bottom / G = q := by rw [hq]; exact Nat.mul_div_cancel_left q hpos
  have ha : a / G = q + (a - bottom) / G := by
    have hsplit : a = G * q + (a - bottom) := by omega
    conv_lhs => rw [hsplit]
    rw [Nat.mul_add_div hpos]
  have hidx : a / G - bottom / G = (a - bottom) / G := by
    rw [ha, hb, Nat.add_sub_cancel_left]
  have hlow : (a - bottom) / G * G ≤ a - bottom := Nat.div_mul_le_self _ _
  have hup : a - bottom < ((a - bottom) / G + 1) * G := by
    have h1 := Nat.div_add_mod (a - bottom) G
    have h2 := Nat.mod_lt (a - bottom) hpos
    rw [Nat.add_mul, Nat.one_mul, Nat.mul_comm]
    omega
  refine ⟨?_, hidx, ⟨?_, ?_⟩, Nat.sub_self _, ?_⟩
  · rw [ha, hb]; exact Nat.le_add_right _ _
  · rw [hidx]; omega
  · rw [hidx]; omega
  · intro hsize
    rw [hidx]
    apply Nat.div_lt_of_lt_mul
    rw [Nat.mul_comm]
    omega

/-- Witness for C12: a heap of four regions of 1 MiB from address 1 MiB and an
address in its third region. -/
theorem addr_to_index_floor_witness :
    (2 ^ 20 ∣ 1048576 ∧ 1048576 ≤ 3150000 ∧ 3150000 < 5242880) ∧
    (initialise 20 1048576 5242880 4).addr_to_index 3150000 = 2 ∧
    ((initialise 20 1048576 5242880 4).regions_bias ≤
      (initialise 20 1048576 5242880 4).addr_to_index_biased 3150000 ∧
    (initialise 20 1048576 5242880 4).addr_to_index 3150000 = (3150000 - 1048576) / 2 ^ 20 ∧
    (1048576 + (initialise 20 1048576 5242880 4).addr_to_index 3150000 * 2 ^ 20 ≤ 3150000 ∧
      3150000 <
        1048576 + ((initialise 20 1048576 5242880 4).addr_to_index 3150000 + 1) * 2 ^ 20) ∧
    (initialise 20 1048576 5242880 4).addr_to_index 1048576 = 0 ∧
    (5242880 - 1048576 = 4 * 2 ^ 20 →
      (initialise 20 1048576 5242880 4).addr_to_index 3150000 < 4)) :=
  ⟨⟨by decide, by decide, by decide⟩, by decide,
    addr_to_index_floor 20 1048576 5242880 4 3150000 (by decide) (by decide) (by decide)⟩

/-- C13, as stated, fails: on the ten-region state `find_contiguous(3)`
returns 2, and called again on the resulting state it does not return the
sentinel. -/
theorem find_contiguous_twice_not_sentinel :
    ¬ ((tenSeq.find_contiguous 3).map (fun p => p.1) = some 2 ∧
      ((tenSeq.find_contiguous 3).bind (fun p => p.2.find_contiguous 3)).map (fun p => p.1)
        = some G1_NULL_HRS_INDEX) := by
  decide

/-- C13, amended. On the ten-region state (length 10, cache 0, regions 2, 3,
4, 7 and 8 empty) `find_contiguous(3)` returns 2 and moves the cache to 5;
called again on the resulting state, whose regions 2, 3 and 4 are still
empty, the scan from 5 fails and the retry from 0 returns 2 again; once
regions 2, 3 and 4 are occupied the call returns the sentinel and leaves the
cache at 5. -/
theorem find_contiguous_twice :
    tenSeq.find_contiguous 3 = some (2, { tenSeq with _next_search_index := 5 }) ∧
    ({ tenSeq with _next_search_index := 5 } : HeapRegionSeq).find_contiguous_from 5 3
      = some G1_NULL_HRS_INDEX ∧
    ({ tenSeq with _next_search_index := 5 } : HeapRegionSeq).find_contiguous 3
      = some (2, { tenSeq with _next_search_index := 5 }) ∧
    tenSeqUsed.find_contiguous 3 = some (G1_NULL_HRS_INDEX, tenSeqUsed) := by
  decide

/-- The loop of `shrink_by` changes no field but `_length`. -/
theorem shrink_loop_frame (end_ : Nat) :
    ∀ (fuel : Nat) (s : HeapRegionSeq) (i bytes n last_start : Nat) (r : ShrinkResult),
      shrink_loop end_ fuel s i bytes n last_start = some r →
      r.seq = { s with _length := r.seq._length } := by
  intro fuel
  induction fuel with
  | zero =>
    intro s i bytes n last_start r hrun
    by_cases hb : bytes > 0
    · simp [shrink_loop, hb] at hrun
    · simp only [shrink_loop, hb, if_false] at hrun
      cases hrun; rfl
  | succ fuel ih =>
    intro s i bytes n last_start r hrun
    by_cases hb : bytes > 0
    · cases hcur : s.at_ i with
      | none => simp [shrink_loop, hb, hcur] at hrun
      | some cur =>
        by_cases hh : cur.isHumongous = true
        · simp only [shrink_loop, hb, if_true, hcur, hh] at hrun
          cases hrun; rfl
        · by_cases he : cur.is_empty = true
          · simp only [shrink_loop, hb, if_true, hcur, hh, he, Bool.not_true] at hrun
            have := ih _ _ _ _ _ r hrun
            rw [this]
          · simp only [shrink_loop, hb, if_true, hcur, hh, he, Bool.not_false] at hrun
            cases hrun; rfl
    · have hdone : shrink_loop end_ (fuel + 1) s i bytes n last_start =
          some { seq := s, mr := ⟨last_start, end_⟩, num_regions_deleted := n } := by
        simp [shrink_loop, hb]
      rw [hdone] at hrun
      cases hrun; rfl

/-- What `shrink_by` leaves of the state, for every input. -/
theorem shrink_by_frame_eq (s : HeapRegionSeq) (bytes : Nat) (r : ShrinkResult)
    (hrun : s.shrink_by bytes = some r) :
    r.seq = { s with _length := r.seq._length, _next_search_index := 0 } := by
  unfold shrink_by at hrun
  simp only [length] at hrun
  cases hat : ({ s with _next_search_index := 0 } : HeapRegionSeq).at_
      (u32 (s._length + (2 ^ 32 - 1))) with
  | none => rw [hat] at hrun; cases hrun
  | some hr =>
    rw [hat] at hrun
    simp only at hrun
    have := shrink_loop_frame _ _ _ _ _ _ _ r hrun
    rw [this]

/-- C17. Whatever `shrink_by` returns, for every state and budget: the new
`next_search_index` is 0 and `allocated_length`, `max_length`, `heap_bottom`,
`heap_end`, the region shift and the whole table are those before the call,
so only `length` and `next_search_index` can differ. With a zero budget the
call, when the last active slot holds a handle, returns the state with only
`next_search_index` reset, no region removed and an empty range. -/
theorem shrink_by_frame (s : HeapRegionSeq) (bytes : Nat) (r : ShrinkResult)
    (hrun : s.shrink_by bytes = some r) :
    (r.seq = { s with _length := r.seq._length, _next_search_index := 0 } ∧
      r.seq._next_search_index = 0 ∧
      r.seq._allocated_length = s._allocated_length ∧ r.seq._max_length = s._max_length ∧
      r.seq._heap_bottom = s._heap_bottom ∧ r.seq._heap_end = s._heap_end ∧
      r.seq._region_shift = s._region_shift ∧ r.seq._regions = s._regions) ∧
    (∀ last, s.at_ (u32 (s._length + (2 ^ 32 - 1))) = some last →
      s.shrink_by 0 =
        some ⟨{ s with _next_search_index := 0 }, ⟨last.end_, last.end_⟩, 0⟩) := by
  have h := shrink_by_frame_eq s bytes r hrun
  refine ⟨⟨h, ?_, ?_, ?_, ?_, ?_, ?_, ?_⟩, ?_⟩
  all_goals try (rw [h])
  intro last hlast
  have hlast0 : ({ s with _next_search_index := 0 } : HeapRegionSeq).at_
      (u32 (s._length + (2 ^ 32 - 1))) = some last := hlast
  unfold shrink_by
  simp only [length, hlast0]
  rfl

/-- Witness for C17 on the six-region sample: with a budget of one region the
call removes region 5, and with a zero budget it removes none. -/
theorem shrink_by_frame_witness :
    (sampleSeq.shrink_by 8 =
        some ⟨{ sampleSeq with _length := 5, _next_search_index := 0 }, ⟨56, 64⟩, 1⟩ ∧
      sampleSeq.shrink_by 0 = some ⟨{ sampleSeq with _next_search_index := 0 }, ⟨64, 64⟩, 0⟩) ∧
    (({ sampleSeq with _length := 5, _next_search_index := 0 } : HeapRegionSeq) =
        { sampleSeq with
          _length :=
            ({ sampleSeq with _length := 5, _next_search_index := 0 } : HeapRegionSeq)._length,
          _next_search_index := 0 } ∧
      ({ sampleSeq with _length := 5, _next_search_index := 0 } : HeapRegionSeq)._next_search_index
        = 0 ∧
      ({ sampleSeq with _length := 5, _next_search_index := 0 } : HeapRegionSeq)._allocated_length
        = sampleSeq._allocated_length ∧
      ({ sampleSeq with _length := 5, _next_search_index := 0 } : HeapRegionSeq)._max_length
        = sampleSeq._max_length ∧
      ({ sampleSeq with _length := 5, _next_search_index := 0 } : HeapRegionSeq)._heap_bottom
        = sampleSeq._heap_bottom ∧
      ({ sampleSeq with _length := 5, _next_search_index := 0 } : HeapRegionSeq)._heap_end
        = sampleSeq._heap_end ∧
      ({ sampleSeq with _length := 5, _next_search_index := 0 } : HeapRegionSeq)._region_shift
        = sampleSeq._region_shift ∧
      ({ sampleSeq with _length := 5, _next_search_index := 0 } : HeapRegionSeq)._regions
        = sampleSeq._regions) ∧
    (∀ last, sampleSeq.at_ (u32 (sampleSeq._length + (2 ^ 32 - 1))) = some last →
      sampleSeq.shrink_by 0 =
        some ⟨{ sampleSeq with _next_search_index := 0 }, ⟨last.end_, last.end_⟩, 0⟩) :=
  ⟨⟨by decide, by decide⟩,
    shrink_by_frame sampleSeq 8
      ⟨{ sampleSeq with _length := 5, _next_search_index := 0 }, ⟨56, 64⟩, 1⟩ (by decide)⟩

theorem usize_sub (bytes G : Nat) (h1 : G ≤ bytes) (h2 : bytes < 2 ^ 64) :
    usize (bytes + (2 ^ 64 - usize G)) = bytes - G := by
  have hG : usize G = G := Nat.mod_eq_of_lt (by omega)
  rw [hG]
  unfold usize
  omega

/-- The budget of the loop of `shrink_by` when it is a multiple of the common
capacity `G` of the active regions: it never wraps, and the loop returns with
budget left only at an occupied or humongous region. -/
theorem shrink_loop_budget (end_ G : Nat) :
    ∀ (fuel : Nat) (s : HeapRegionSeq) (i bytes n last_start : Nat) (r : ShrinkResult),
      s._length < 2 ^ 32 → s._regions.length < 2 ^ 32 →
      i = u32 (s._length + (2 ^ 32 - 1)) → bytes < 2 ^ 64 → G ∣ bytes →
      (∀ j hr, j < s._length → s.at_ j = some hr → hr.capacity = G) →
      shrink_loop end_ fuel s i bytes n last_start = some r →
      r.seq._length ≤ s._length ∧ (s._length - r.seq._length) * G ≤ bytes ∧
      ((s._length - r.seq._length) * G < bytes →
        1 ≤ r.seq._length ∧
        ∃ hr, s.at_ (r.seq._length - 1) = some hr ∧
          (hr.isHumongous = true ∨ hr.is_empty = false)) := by
  intro fuel
  induction fuel with
  | zero =>
    intro s i bytes n last_start r hlen htab hi hb64 hdiv hcap hrun
    by_cases hb : bytes > 0
    · simp [shrink_loop, hb] at hrun
    · simp only [shrink_loop, hb, if_false] at hrun
      cases hrun
      refine ⟨le_refl _, by simp, ?_⟩
      intro h; simp at h; omega
  | succ fuel ih =>
    intro s i bytes n last_start r hlen htab hi hb64 hdiv hcap hrun
    by_cases hb : bytes > 0
    · cases hcur : s.at_ i with
      | none => simp [shrink_loop, hb, hcur] at hrun
      | some cur =>
        obtain ⟨h1, hil⟩ := shrink_index s i hlen htab hi (by simp [hcur])
        have hati : s.at_ (s._length - 1) = some cur := hil ▸ hcur
        by_cases hh : cur.isHumongous = true
        · simp only [shrink_loop, hb, if_true, hcur, hh] at hrun
          cases hrun
          exact ⟨le_refl _, by simp, fun _ => ⟨h1, cur, hati, Or.inl hh⟩⟩
        · by_cases he : cur.is_empty = true
          · have hdec : decrement_length s._length = s._length - 1 := u32_pred _ h1 hlen
            have hcapG : cur.capacity = G := hcap _ cur (by omega) hati
            have hGle : G ≤ bytes := Nat.le_of_dvd hb hdiv
            simp only [shrink_loop, hb, if_true, hcur, hh, he, Bool.not_true, hdec, hcapG,
              usize_sub bytes G hGle hb64] at hrun
            have hi2 : u32 (i + (2 ^ 32 - 1)) = u32 (s._length - 1 + (2 ^ 32 - 1)) := by
              rw [hil]
            obtain ⟨hle, hbud, hmax⟩ :=
              ih { s with _length := s._length - 1 } _ (bytes - G) _ _ r (by simp; omega) htab
                hi2 (by omega) (Nat.dvd_sub' hdiv (dvd_refl G))
                (fun j hr hj hat => hcap j hr (by simp at hj; omega) hat) hrun
            simp only at hle hbud hmax
            have hk : s._length - r.seq._length = (s._length - 1 - r.seq._length) + 1 := by
              omega
            rw [hk, Nat.add_mul, Nat.one_mul]
            refine ⟨by omega, by omega, ?_⟩
            intro hlt
            exact hmax (by omega)
          · have he2 : cur.is_empty = false := by simpa using he
            simp only [shrink_loop, hb, if_true, hcur, hh, he, Bool.not_false] at hrun
            cases hrun
            exact ⟨le_refl _, by simp, fun _ => ⟨h1, cur, hati, Or.inr he2⟩⟩
    · have hdone : shrink_loop end_ (fuel + 1) s i bytes n last_start =
          some { seq := s, mr := ⟨last_start, end_⟩, num_regions_deleted := n } := by
        simp [shrink_loop, hb]
      rw [hdone] at hrun
      cases hrun
      refine ⟨le_refl _, by simp, ?_⟩
      intro h; simp at h; omega

/-- C16. When `shrink_bytes` is a `size_t` multiple of the region size `G` and
every active region has capacity `G`, whatever `shrink_by` returns:
`num_regions_deleted * G <= shrink_bytes` (the budget never wraps below
zero), and if `num_regions_deleted * G < shrink_bytes` then the region at the
new last active index `length_after - 1` is humongous or non-empty. -/
theorem shrink_by_budget (s : HeapRegionSeq) (bytes G : Nat) (r : ShrinkResult)
    (hlen : s._length < 2 ^ 32) (htab : s._regions.length < 2 ^ 32)
    (hb64 : bytes < 2 ^ 64) (hdiv : G ∣ bytes)
    (hcap : ∀ j hr, j < s._length → s.at_ j = some hr → hr.capacity = G)
    (hrun : s.shrink_by bytes = some r) :
    r.num_regions_deleted * G ≤ bytes ∧
    (r.num_regions_deleted * G < bytes →
      1 ≤ r.seq._length ∧
      ∃ hr, s.at_ (r.seq._length - 1) = some hr ∧
        (hr.isHumongous = true ∨ hr.is_empty = false)) := by
  obtain ⟨_, _, _, hnum, _⟩ := shrink_by_post s bytes r hlen htab hrun
  rw [hnum]
  unfold shrink_by at hrun
  simp only [length] at hrun
  cases hat : ({ s with _next_search_index := 0 } : HeapRegionSeq).at_
      (u32 (s._length + (2 ^ 32 - 1))) with
  | none => rw [hat] at hrun; cases hrun
  | some hr =>
    rw [hat] at hrun
    simp only at hrun
    obtain ⟨_, hbud, hmax⟩ :=
      shrink_loop_budget _ G _ { s with _next_search_index := 0 } _ _ _ _ r hlen htab rfl
        hb64 hdiv hcap hrun
    exact ⟨hbud, hmax⟩

/-- Witness for C16 on the six-region sample (regions of 8 bytes): a budget of
800 bytes removes regions 5 and 4 and stops at the occupied region 3. -/
theorem shrink_by_budget_witness :
    (sampleSeq._length < 2 ^ 32 ∧ sampleSeq._regions.length < 2 ^ 32 ∧ 800 < 2 ^ 64 ∧
      8 ∣ 800 ∧
      sampleSeq.shrink_by 800 =
        some ⟨{ sampleSeq with _length := 4, _next_search_index := 0 }, ⟨48, 64⟩, 2⟩) ∧
    (2 * 8 ≤ 800 ∧
      (2 * 8 < 800 →
        1 ≤ ({ sampleSeq with _length := 4, _next_search_index := 0 } : HeapRegionSeq)._length ∧
        ∃ hr, sampleSeq.at_
            (({ sampleSeq with _length := 4, _next_search_index := 0 } : HeapRegionSeq)._length
              - 1) = some hr ∧
          (hr.isHumongous = true ∨ hr.is_empty = false))) :=
  ⟨⟨by decide, by decide, by decide, by decide, by decide⟩,
    shrink_by_budget sampleSeq 800 8
      ⟨{ sampleSeq with _length := 4, _next_search_index := 0 }, ⟨48, 64⟩, 2⟩
      (by decide) (by decide) (by decide) (by decide)
      (by
        intro j hr hj hat
        have hj' : j < 6 := hj
        interval_cases j <;>
          · simp only [sampleSeq, at_] at hat
            cases hat
            decide)
      (by decide)⟩

/-- The capacities of `m + 1` regions from index `lo` that follow one another
without a gap add up to the distance from the bottom of the first to the end
of the last, and each of them lies inside that range. -/
theorem capacity_chain (s : HeapRegionSeq) (lo : Nat) (first : HeapRegion)
    (hfirst : s.at_ lo = some first) :
    ∀ (m : Nat) (last : HeapRegion), s.at_ (lo + m) = some last →
      (∀ j hr, lo ≤ j → j ≤ lo + m → s.at_ j = some hr → hr.bottom ≤ hr.end_) →
      (∀ j hr p, lo < j → j ≤ lo + m → s.at_ j = some hr → s.at_ (j - 1) = some p →
        hr.bottom = p.end_) →
      (∀ j, lo ≤ j → j ≤ lo + m → (s.at_ j).isSome = true) →
      first.bottom ≤ last.end_ ∧
      last.end_ - first.bottom = ((List.range' lo (m + 1)).map s.capacityAt).sum ∧
      ∀ j hr, lo ≤ j → j ≤ lo + m → s.at_ j = some hr →
        first.bottom ≤ hr.bottom ∧ hr.end_ ≤ last.end_ := by
  intro m
  induction m with
  | zero =>
    intro last hlast hord _ _
    rw [Nat.add_zero, hfirst] at hlast
    cases hlast
    have hle := hord lo first (le_refl _) (by omega) hfirst
    refine ⟨hle, by simp [capacityAt, hfirst, HeapRegion.capacity], ?_⟩
    intro j hr h1 h2 hat
    have : j = lo := by omega
    subst this
    rw [hfirst] at hat; cases hat
    exact ⟨le_refl _, le_refl _⟩
  | succ m ih =>
    intro last hlast hord hcontig hsome
    obtain ⟨prev, hprev⟩ := Option.isSome_iff_exists.mp (hsome (lo + m) (by omega) (by omega))
    obtain ⟨h1, h2, h3⟩ := ih prev hprev
      (fun j hr a b hat => hord j hr a (by omega) hat)
      (fun j hr p a b hat hp => hcontig j hr p a (by omega) hat hp)
      (fun j a b => hsome j a (by omega))
    have hbot : last.bottom = prev.end_ :=
      hcontig (lo + (m + 1)) last prev (by omega) (le_refl _) hlast
        (by rw [show lo + (m + 1) - 1 = lo + m by omega]; exact hprev)
    have hle := hord (lo + (m + 1)) last (by omega) (le_refl _) hlast
    refine ⟨by omega, ?_, ?_⟩
    · rw [List.range'_concat, List.map_append, List.sum_append, ← h2]
      simp only [Nat.one_mul, List.map_cons, List.map_nil, List.sum_cons, List.sum_nil,
        capacityAt, hlast, HeapRegion.capacity]
      omega
    · intro j hr a b hat
      by_cases hj : j ≤ lo + m
      · have := h3 j hr a hj hat
        omega
      · have : j = lo + (m + 1) := by omega
        subst this
        rw [hlast] at hat; cases hat
        omega

/-- C14. On a state whose length and table size are `uint` values, whose
active regions have `bottom <= end` and in which an active region whose
predecessor is not humongous starts where that predecessor ends, whatever
`shrink_by` returns: `num_regions_deleted = length_before - length_after`;
when regions were removed the returned range runs from the bottom of the
lowest-index removed region to the end of the region that was last active;
when none was removed the count is 0 and the range is empty at the end of
the last active region; the range contains the range of every removed region
and its byte size is the sum of their capacities. -/
theorem shrink_by_reports (s : HeapRegionSeq) (bytes : Nat) (r : ShrinkResult)
    (hlen : s._length < 2 ^ 32) (htab : s._regions.length < 2 ^ 32)
    (hord : ∀ j hr, j < s._length → s.at_ j = some hr → hr.bottom ≤ hr.end_)
    (hcontig : ∀ j hr p, 0 < j → j < s._length → s.at_ j = some hr →
      s.at_ (j - 1) = some p → p.isHumongous = false → hr.bottom = p.end_)
    (hrun : s.shrink_by bytes = some r) :
    r.num_regions_deleted = s._length - r.seq._length ∧
    (∃ last, s.at_ (s._length - 1) = some last ∧ r.mr.end_ = last.end_ ∧
      (r.seq._length < s._length →
        ∃ lowest, s.at_ r.seq._length = some lowest ∧ r.mr.start = lowest.bottom) ∧
      (r.seq._length = s._length →
        r.num_regions_deleted = 0 ∧ r.mr.start = last.end_)) ∧
    r.mr.start ≤ r.mr.end_ ∧
    r.mr.end_ - r.mr.start =
      ((List.range' r.seq._length (s._length - r.seq._length)).map s.capacityAt).sum ∧
    (∀ j hr, r.seq._length ≤ j → j < s._length → s.at_ j = some hr →
      r.mr.start ≤ hr.bottom ∧ hr.end_ ≤ r.mr.end_) := by
  obtain ⟨_, hle, hall, hnum, h1, last, hlast, hend, hstart⟩ :=
    shrink_by_post s bytes r hlen htab hrun
  by_cases hlt : r.seq._length < s._length
  · obtain ⟨lowest, hlow, _, _⟩ := hall r.seq._length (le_refl _) hlt
    rw [if_pos hlt, hlow] at hstart
    simp only [Option.map_some', Option.getD_some] at hstart
    have htop : r.seq._length + (s._length - 1 - r.seq._length) = s._length - 1 := by omega
    obtain ⟨c1, c2, c3⟩ := capacity_chain s r.seq._length lowest hlow
      (s._length - 1 - r.seq._length) last (by rw [htop]; exact hlast)
      (fun j hr a b hat => hord j hr (by omega) hat)
      (fun j hr p a b hat hp => by
        obtain ⟨x, hx, _, hx2⟩ := hall (j - 1) (by omega) (by omega)
        rw [hp] at hx; cases hx
        exact hcontig j hr p (by omega) (by omega) hat hp hx2)
      (fun j a b => by
        obtain ⟨x, hx, _⟩ := hall j a (by omega)
        rw [hx]; rfl)
    have hcount : s._length - 1 - r.seq._length + 1 = s._length - r.seq._length := by omega
    rw [hcount] at c2
    refine ⟨hnum, ⟨last, hlast, hend, fun _ => ⟨lowest, hlow, hstart⟩, fun h => by omega⟩,
      by rw [hstart, hend]; exact c1, by rw [hstart, hend]; exact c2, ?_⟩
    intro j hr a b hat
    rw [hstart, hend]
    exact c3 j hr a (by omega) hat
  · have heq : r.seq._length = s._length := by omega
    rw [if_neg hlt] at hstart
    refine ⟨hnum, ⟨last, hlast, hend, fun h => absurd h hlt,
      fun _ => ⟨by rw [hnum, heq, Nat.sub_self], hstart⟩⟩, by rw [hstart, hend], ?_, ?_⟩
    · rw [hstart, hend, heq, Nat.sub_self, Nat.sub_self]; rfl
    · intro j hr a b
      omega

/-- Witness for C14 on the six-region sample: a budget of 800 bytes removes
regions 4 and 5, the range `[48, 64)` of 16 bytes. -/
theorem shrink_by_reports_witness :
    (sampleSeq._length < 2 ^ 32 ∧ sampleSeq._regions.length < 2 ^ 32 ∧
      sampleSeq.shrink_by 800 =
        some ⟨{ sampleSeq with _length := 4, _next_search_index := 0 }, ⟨48, 64⟩, 2⟩) ∧
    ((2 : Nat) = sampleSeq._length - 4 ∧
    (∃ last, sampleSeq.at_ (sampleSeq._length - 1) = some last ∧ (64 : Nat) = last.end_ ∧
      (4 < sampleSeq._length →
        ∃ lowest, sampleSeq.at_ 4 = some lowest ∧ (48 : Nat) = lowest.bottom) ∧
      (4 = sampleSeq._length → (2 : Nat) = 0 ∧ (48 : Nat) = last.end_)) ∧
    (48 : Nat) ≤ 64 ∧
    (64 : Nat) - 48 =
      ((List.range' 4 (sampleSeq._length - 4)).map sampleSeq.capacityAt).sum ∧
    (∀ j hr, 4 ≤ j → j < sampleSeq._length → sampleSeq.at_ j = some hr →
      48 ≤ hr.bottom ∧ hr.end_ ≤ 64)) :=
  ⟨⟨by decide, by decide, by decide⟩,
    shrink_by_reports sampleSeq 800
      ⟨{ sampleSeq with _length := 4, _next_search_index := 0 }, ⟨48, 64⟩, 2⟩
      (by decide) (by decide)
      (by
        intro j hr hj hat
        have hj' : j < 6 := hj
        interval_cases j <;>
          · simp only [sampleSeq, at_] at hat
            cases hat
            decide)
      (by
        intro j hr p h0 hj hat hp _
        have hj' : j < 6 := hj
        interval_cases j <;>
          · simp only [sampleSeq, at_] at hat hp
            cases hat
            cases hp
            decide)
      (by decide)⟩

/-- The loop of `free_suffix` counts the empty regions below `index` down to
the first occupied one. -/
theorem free_suffix_loop_spec (s : HeapRegionSeq) (hlen : s._length < 2 ^ 32)
    (hact : s.ActiveHandles) :
    ∀ (fuel index res : Nat), index ≤ s._length → index ≤ fuel → res + index = s._length →
      (∀ i, index ≤ i → i < s._length → s.emptyAt i = true) →
      ∃ k, free_suffix_loop s fuel index res = some k ∧ k ≤ s._length ∧
        (∀ i, s._length - k ≤ i → i < s._length → s.emptyAt i = true) ∧
        (k < s._length → s.emptyAt (s._length - k - 1) = false) := by
  intro fuel
  induction fuel with
  | zero =>
    intro index res h1 h2 h3 hall
    have h0 : index = 0 := by omega
    subst h0
    refine ⟨res, by simp [free_suffix_loop], by omega, ?_, fun h => by omega⟩
    intro i hi1 hi2
    exact hall i (by omega) hi2
  | succ fuel ih =>
    intro index res h1 h2 h3 hall
    by_cases hc : index > 0
    · have hw : u32 (index + (2 ^ 32 - 1)) = index - 1 := u32_pred _ hc (by omega)
      obtain ⟨hr, hhr⟩ := Option.isSome_iff_exists.mp (hact (index - 1) (by omega))
      by_cases he : hr.is_empty = true
      · have hstep : free_suffix_loop s (fuel + 1) index res =
            free_suffix_loop s fuel (index - 1) (res + 1) := by
          simp only [free_suffix_loop, hc, if_true, hw, hhr, he, Bool.not_true,
            Bool.false_eq_true, if_false, u32_of_lt (show res + 1 < 2 ^ 32 by omega)]
        rw [hstep]
        apply ih (index - 1) (res + 1) (by omega) (by omega) (by omega)
        intro i hi1 hi2
        by_cases hi : index ≤ i
        · exact hall i hi hi2
        · have : i = index - 1 := by omega
          subst this
          simp [emptyAt, hhr, he]
      · have he2 : hr.is_empty = false := by simpa using he
        refine ⟨res, by simp only [free_suffix_loop, hc, if_true, hw, hhr, he2, Bool.not_false],
          by omega, ?_, ?_⟩
        · intro i hi1 hi2
          exact hall i (by omega) hi2
        · intro _
          have : s._length - res - 1 = index - 1 := by omega
          rw [this]
          simp [emptyAt, hhr, he2]
    · have h0 : index = 0 := by omega
      subst h0
      refine ⟨res, by simp [free_suffix_loop], by omega, ?_, fun h => by omega⟩
      intro i hi1 hi2
      exact hall i (by omega) hi2

/-- C19. On a state whose active slots hold handles, `free_suffix` returns a
value `k` and the state unchanged; `k <= length`, the regions at the indices
`length - k, ..., length - 1` are all empty, and `k` is the largest such
number: 0 when `length = 0` or the last active region is occupied, `length`
when every active region is empty. -/
theorem free_suffix_maximal (s : HeapRegionSeq) (hlen : s._length < 2 ^ 32)
    (hact : s.ActiveHandles) :
    ∃ k, s.free_suffix = some (k, s) ∧ k ≤ s._length ∧
      (∀ i, s._length - k ≤ i → i < s._length → s.emptyAt i = true) ∧
      (∀ k', k' ≤ s._length →
        (∀ i, s._length - k' ≤ i → i < s._length → s.emptyAt i = true) → k' ≤ k) ∧
      (s._length = 0 → k = 0) ∧
      (0 < s._length → s.emptyAt (s._length - 1) = false → k = 0) ∧
      ((∀ i, i < s._length → s.emptyAt i = true) → k = s._length) := by
  obtain ⟨k, hk, hle, hall, hstop⟩ :=
    free_suffix_loop_spec s hlen hact s._length s._length 0 (le_refl _) (le_refl _)
      (by omega) (fun i h1 h2 => by omega)
  have hmax : ∀ k', k' ≤ s._length →
      (∀ i, s._length - k' ≤ i → i < s._length → s.emptyAt i = true) → k' ≤ k := by
    intro k' hk' hall'
    by_contra hgt
    have h1 := hstop (by omega)
    have h2 := hall' (s._length - k - 1) (by omega) (by omega)
    rw [h1] at h2; cases h2
  refine ⟨k, by simp [free_suffix, length, hk], hle, hall, hmax, by omega, ?_, ?_⟩
  · intro hpos hocc
    by_contra hk0
    have := hall (s._length - 1) (by omega) (by omega)
    rw [hocc] at this; cases this
  · intro hfree
    have := hmax s._length (le_refl _) (fun i _ hi => hfree i hi)
    omega

/-- Witness for C19 on the six-region sample, whose regions 4 and 5 are empty
and whose region 3 is occupied. -/
theorem free_suffix_maximal_witness :
    (sampleSeq._length < 2 ^ 32 ∧ sampleSeq.ActiveHandles) ∧
    sampleSeq.free_suffix = some (2, sampleSeq) ∧
    ∃ k, sampleSeq.free_suffix = some (k, sampleSeq) ∧ k ≤ sampleSeq._length ∧
      (∀ i, sampleSeq._length - k ≤ i → i < sampleSeq._length → sampleSeq.emptyAt i = true) ∧
      (∀ k', k' ≤ sampleSeq._length →
        (∀ i, sampleSeq._length - k' ≤ i → i < sampleSeq._length →
          sampleSeq.emptyAt i = true) → k' ≤ k) ∧
      (sampleSeq._length = 0 → k = 0) ∧
      (0 < sampleSeq._length → sampleSeq.emptyAt (sampleSeq._length - 1) = false → k = 0) ∧
      ((∀ i, i < sampleSeq._length → sampleSeq.emptyAt i = true) → k = sampleSeq._length) :=
  ⟨⟨by decide, by decide⟩, by decide,
    free_suffix_maximal sampleSeq (by decide) (by decide)⟩

theorem initialise_null (shift bottom end_ max_length : Nat) :
    (initialise shift bottom end_ max_length).UncommittedNull := by
  intro i _ hi
  have hi' : i < max_length := hi
  simp [initialise, List.getElem?_replicate, hi']

/-- A call that returns keeps every uncommitted slot null. -/
theorem step_null (s s1 : HeapRegionSeq) (op : Op) (hv : s.Valid) (hn : s.UncommittedNull)
    (hstep : s.step op = some s1) : s1.UncommittedNull := by
  cases op with
  | expand factory old_end new_end list =>
    simp only [step] at hstep
    split at hstep
    · cases hr : s.expand_by factory old_end new_end list with
      | none => rw [hr] at hstep; cases hstep
      | some r =>
        rw [hr] at hstep; cases hstep
        obtain ⟨_, _, ha, _, hsame, ⟨_, hmx, _⟩, _⟩ :=
          expand_loop_post factory old_end new_end _ s old_end list [] r hv hr
        intro i h1 h2
        have h1' : r.seq._allocated_length ≤ i := h1
        have h2' : i < r.seq._max_length := h2
        show r.seq._regions[i]? = some none
        rw [hsame i (Or.inr h1')]
        exact hn i (by omega) (by omega)
    · cases hstep
  | shrink bytes =>
    simp only [step] at hstep
    split at hstep
    · cases hr : s.shrink_by bytes with
      | none => rw [hr] at hstep; cases hstep
      | some r =>
        rw [hr] at hstep; cases hstep
        have h := shrink_by_frame_eq s bytes r hr
        show r.seq.UncommittedNull
        rw [h]
        exact hn
    · cases hstep
  | find num =>
    simp only [step] at hstep
    split at hstep
    · rename_i hpre
      obtain ⟨res, hres, _, _⟩ := find_contiguous_correct s num (valid_length_lt s hv) hpre.2
        (valid_activeHandles s hv) hv.1.2.2 hpre.1
      rw [hres] at hstep
      cases hstep
      by_cases hnull : res = G1_NULL_HRS_INDEX
      · simpa [hnull] using hn
      · simp only [hnull, ne_eq, not_false_eq_true, if_true]
        exact hn
    · cases hstep
  | update index hr =>
    simp only [step] at hstep
    split at hstep
    · rename_i hidx
      cases hstep
      intro i h1 h2
      have hne : index ≠ i := by
        have h1' : s._allocated_length ≤ i := h1
        omega
      have := hn i h1 h2
      simpa [List.getElem?_set_ne hne] using this
    · cases hstep

theorem run_layout (ops : List Op) : ∀ (s s1 : HeapRegionSeq), s.Valid → s.UncommittedNull →
    s.run ops = some s1 → s1.Valid ∧ s1.UncommittedNull := by
  induction ops with
  | nil => intro s s1 hv hn h; simp [run] at h; exact h ▸ ⟨hv, hn⟩
  | cons op ops ih =>
    intro s s1 hv hn h
    simp only [run] at h
    cases hs : s.step op with
    | none => rw [hs] at h; cases h
    | some s2 =>
      rw [hs] at h
      exact ih s2 s1 (step_valid s s2 op hv hs) (step_null s s2 op hv hn hs) h

/-- An expansion changes only slots that were null and uncommitted. -/
theorem expand_by_writes_null (s : HeapRegionSeq) (factory : Nat → Nat → Option HeapRegion)
    (old_end new_end : Nat) (list : FreeRegionList) (r : ExpandResult) (hv : s.Valid)
    (hn : s.UncommittedNull) (hrun : s.expand_by factory old_end new_end list = some r) :
    ∀ i, r.seq._regions[i]? ≠ s._regions[i]? →
      s._allocated_length ≤ i ∧ s._regions[i]? = some none ∧
        ∃ hr, r.seq._regions[i]? = some (some hr) := by
  obtain ⟨hvr, _, ha, _, hsame, ⟨_, hmx, _⟩, _⟩ :=
    expand_loop_post factory old_end new_end _ s old_end list [] r hv hrun
  intro i hne
  have h1 : s._allocated_length ≤ i := by
    by_contra h; exact hne (hsame i (Or.inl (by omega)))
  have h2 : i < r.seq._allocated_length := by
    by_contra h; exact hne (hsame i (Or.inr (by omega)))
  refine ⟨h1, hn i h1 (by have := hvr.1.2.1; omega), ?_⟩
  obtain ⟨x, hx⟩ := Option.isSome_iff_exists.mp (hvr.2.2.2 i h2)
  exact ⟨x, (at_eq_some_iff _ _ _).mp hx⟩

/-- C18. After `initialize` (with `max_length` a `uint`) `allocated_length` is
0 and every slot in `[0, max_length)` is null. After any finite sequence of
`expand_by` (complete or cut short by the factory), `shrink_by` and
`find_contiguous` calls, interleaved with the owner's changes to committed
regions, every slot in `[0, allocated_length)` holds a handle and every slot
in `[allocated_length, max_length)` is null. An `expand_by` from such a state
changes only slots that were uncommitted and null, each of which then holds
a handle, so it never overwrites a committed handle. -/
theorem commit_layout_invariant (shift bottom end_ max_length : Nat) (ops : List Op)
    (s : HeapRegionSeq) (hmax : max_length < 2 ^ 32)
    (hrun : (initialise shift bottom end_ max_length).run ops = some s) :
    ((initialise shift bottom end_ max_length)._allocated_length = 0 ∧
      ∀ i, i < max_length → (initialise shift bottom end_ max_length)._regions[i]? = some none) ∧
    ((∀ i, i < s._allocated_length → ∃ hr, s._regions[i]? = some (some hr)) ∧
      ∀ i, s._allocated_length ≤ i → i < s._max_length → s._regions[i]? = some none) ∧
    (∀ factory old_end new_end list r,
      s.expand_by factory old_end new_end list = some r →
      ∀ i, r.seq._regions[i]? ≠ s._regions[i]? →
        s._allocated_length ≤ i ∧ s._regions[i]? = some none ∧
          ∃ hr, r.seq._regions[i]? = some (some hr)) := by
  have hinit := initialise_null shift bottom end_ max_length
  obtain ⟨hv, hn⟩ := run_layout ops _ s (initialise_valid shift bottom end_ max_length hmax)
    hinit hrun
  refine ⟨⟨rfl, fun i hi => hinit i (Nat.zero_le _) hi⟩, ⟨?_, hn⟩, ?_⟩
  · intro i hi
    obtain ⟨x, hx⟩ := Option.isSome_iff_exists.mp (hv.2.2.2 i hi)
    exact ⟨x, (at_eq_some_iff _ _ _).mp hx⟩
  · intro factory old_end new_end list r hr
    exact expand_by_writes_null s factory old_end new_end list r hv hn hr

/-- Witness for C18: the sample calls run from the initial state of a heap of
eight regions and end with five committed slots and three null ones. -/
theorem commit_layout_invariant_witness :
    (8 < 2 ^ 32 ∧ (initialise 3 16 80 8).run sampleOps = some sampleFinal) ∧
    (sampleFinal.expand_by sampleFactory 48 64 []).map
        (fun r => (r.seq._regions[4]?, r.seq._regions[5]?))
      = some (sampleFinal._regions[4]?, some (some (mkRegion 5 56 64 true))) ∧
    sampleFinal._regions[5]? = some none ∧
    (((initialise 3 16 80 8)._allocated_length = 0 ∧
      ∀ i, i < 8 → (initialise 3 16 80 8)._regions[i]? = some none) ∧
    ((∀ i, i < sampleFinal._allocated_length → ∃ hr, sampleFinal._regions[i]? = some (some hr)) ∧
      ∀ i, sampleFinal._allocated_length ≤ i → i < sampleFinal._max_length →
        sampleFinal._regions[i]? = some none) ∧
    (∀ factory old_end new_end list r,
      sampleFinal.expand_by factory old_end new_end list = some r →
      ∀ i, r.seq._regions[i]? ≠ sampleFinal._regions[i]? →
        sampleFinal._allocated_length ≤ i ∧ sampleFinal._regions[i]? = some none ∧
          ∃ hr, r.seq._regions[i]? = some (some hr))) :=
  ⟨⟨by decide, by decide⟩, by decide, by decide,
    commit_layout_invariant 3 16 80 8 sampleOps sampleFinal (by decide) (by decide)⟩

theorem last_end_congr (s t : HeapRegionSeq) (i : Nat) (hb : t._heap_bottom = s._heap_bottom)
    (hat : 0 < i → t.at_ (i - 1) = s.at_ (i - 1)) : t.last_end i = s.last_end i := by
  unfold last_end
  by_cases h0 : i = 0
  · simp [h0, hb]
  · simp only [h0, if_false]
    rw [hat (by omega)]

/-- The loop of `expand_by` keeps the committed regions contiguous and
indexed, when it starts at the committed upper address. -/
theorem expand_loop_contiguous (factory : Nat → Nat → Option HeapRegion)
    (old_end new_end GrainBytes : Nat) (hfb : FactoryBuilds factory GrainBytes) :
    ∀ (fuel : Nat) (s : HeapRegionSeq) (nb : Nat) (list : FreeRegionList)
      (calls : List (Nat × Nat)) (r : ExpandResult), s.Valid → s.CommittedContiguous →
      nb = s.last_end s._length →
      expand_loop factory old_end new_end fuel s nb list calls = some r →
      r.seq.CommittedContiguous := by
  intro fuel
  induction fuel with
  | zero =>
    intro s nb list calls r hv hcc hnb hrun
    by_cases hc : nb < new_end
    · simp [expand_loop, hc] at hrun
    · rw [expand_loop_done _ _ _ _ _ _ _ _ hc] at hrun
      cases hrun
      exact hcc
  | succ fuel ih =>
    intro s nb list calls r hv hcc hnb hrun
    by_cases hc : nb < new_end
    · obtain ⟨⟨hb1, hb2, hb3⟩, htab, hmax, hslots⟩ := hv
      by_cases halloc : s._length = s._allocated_length
      · cases hf : factory s._length nb with
        | none =>
          rw [expand_loop_fail _ _ _ _ _ _ _ _ hc halloc hf] at hrun
          cases hrun
          exact hcc
        | some hr =>
          by_cases hidx : s._length < s._regions.length
          · have h32 : s._length + 1 < 2 ^ 32 := by omega
            rw [expand_loop_alloc _ _ _ _ _ _ _ _ hr hc halloc hf hidx h32] at hrun
            obtain ⟨hfi, hfbot, _⟩ := hfb _ _ _ hf
            have hatlt : ∀ i, i < s._length →
                ({ s with _regions := s._regions.set s._length (some hr),
                          _allocated_length := s._allocated_length + 1,
                          _length := s._length + 1 } : HeapRegionSeq).at_ i = s.at_ i := by
              intro i hi
              have hne : s._length ≠ i := by omega
              simp [at_, List.getElem?_set_ne hne]
            have hatnew : ({ s with _regions := s._regions.set s._length (some hr),
                                    _allocated_length := s._allocated_length + 1,
                                    _length := s._length + 1 } : HeapRegionSeq).at_ s._length
                = some hr := by
              simp [at_, List.getElem?_set_self hidx]
            have hle : ∀ i, i ≤ s._length →
                ({ s with _regions := s._regions.set s._length (some hr),
                          _allocated_length := s._allocated_length + 1,
                          _length := s._length + 1 } : HeapRegionSeq).last_end i
                  = s.last_end i := by
              intro i hi
              exact last_end_congr s _ i rfl (fun h0 => hatlt (i - 1) (by omega))
            have hv2 : ({ s with _regions := s._regions.set s._length (some hr),
                                 _allocated_length := s._allocated_length + 1,
                                 _length := s._length + 1 } : HeapRegionSeq).Valid := by
              refine ⟨⟨by simp; omega, by simp; omega, by simp; omega⟩, by simpa using htab,
                hmax, ?_⟩
              intro i hi
              simp only at hi
              by_cases hil : i = s._length
              · rw [hil, hatnew]; rfl
              · rw [hatlt i (by omega)]
                exact hslots i (by omega)
            refine ih _ _ _ _ r hv2 ?_ ?_ hrun
            · intro i hi
              simp only at hi
              by_cases hil : i = s._length
              · subst hil
                exact ⟨hr, hatnew, hfi, by rw [hle _ (le_refl _), hfbot, hnb]⟩
              · obtain ⟨x, hx1, hx2, hx3⟩ := hcc i (by omega)
                exact ⟨x, by rw [hatlt i (by omega)]; exact hx1, hx2,
                  by rw [hle i (by omega)]; exact hx3⟩
            · exact (last_end_succ _ _ _ hatnew).symm
          · simp [expand_loop, hc, length, ← halloc, hf, hidx] at hrun
      · have hlt : s._length < s._allocated_length := by omega
        obtain ⟨hr, hhr⟩ := Option.isSome_iff_exists.mp (hslots _ hlt)
        have h32 : s._length + 1 < 2 ^ 32 := by omega
        rw [expand_loop_reuse _ _ _ _ _ _ _ _ hr hc halloc hhr h32] at hrun
        have hv2 : ({ s with _length := s._length + 1 } : HeapRegionSeq).Valid :=
          ⟨⟨by simp; omega, hb2, by simp; omega⟩, htab, hmax, hslots⟩
        have hat2 : ({ s with _length := s._length + 1 } : HeapRegionSeq).at_ s._length
            = some hr := hhr
        exact ih _ _ _ _ r hv2 hcc (last_end_succ _ _ _ hat2).symm hrun
    · rw [expand_loop_done _ _ _ _ _ _ _ _ hc] at hrun
      cases hrun
      exact hcc

/-- Every state reached by growing and shrinking from a state whose table and
counters agree and whose committed regions are contiguous is such a state,
with the same `_heap_bottom`. -/
theorem growShrink_contiguous (GrainBytes : Nat) (s0 s : HeapRegionSeq)
    (hv0 : s0.Valid) (hc0 : s0.CommittedContiguous) (hreach : GrowShrink GrainBytes s0 s) :
    s.Valid ∧ s.CommittedContiguous ∧ s._heap_bottom = s0._heap_bottom := by
  induction hreach with
  | start => exact ⟨hv0, hc0, rfl⟩
  | expand s1 factory old_end new_end list r _ hfb hold hrun ih =>
    obtain ⟨hv, hcc, hb⟩ := ih
    obtain ⟨hvr, _, _, _, _, ⟨_, _, hbot, _, _⟩, _⟩ :=
      expand_loop_post factory old_end new_end _ s1 old_end list [] r hv hrun
    exact ⟨hvr,
      expand_loop_contiguous factory old_end new_end GrainBytes hfb _ s1 old_end list [] r hv
        hcc hold hrun,
      hbot.trans hb⟩
  | shrink s1 bytes r _ hrun ih =>
    obtain ⟨hv, hcc, hb⟩ := ih
    have h := shrink_by_frame_eq s1 bytes r hrun
    refine ⟨shrink_by_valid s1 bytes r hv hrun, ?_, ?_⟩
    · rw [h]; exact hcc
    · rw [h]; exact hb

/-- C15. Assuming every region factory returns, for `(index, bottom)`, a
region whose index field is `index`, whose bottom is `bottom` and whose end
is `bottom + GrainBytes`: in every state reached from `initialize` (with
`max_length` a `uint`) by `expand_by` and `shrink_by` calls, each `expand_by`
starting at the committed upper address, a committed region 0 has index
field 0 and bottom `heap_bottom`, and for every committed index `i > 0`
region `i` has index field `i` and its bottom is the end of region
`i - 1`. -/
theorem contiguity_invariant (GrainBytes shift bottom end_ max_length : Nat)
    (s : HeapRegionSeq) (hmax : max_length < 2 ^ 32)
    (hreach : GrowShrink GrainBytes (initialise shift bottom end_ max_length) s) :
    s._heap_bottom = bottom ∧
    (0 < s._allocated_length →
      ∃ hr, s.at_ 0 = some hr ∧ hr.hrs_index = 0 ∧ hr.bottom = bottom) ∧
    (∀ i, 0 < i → i < s._allocated_length →
      ∃ hr p, s.at_ i = some hr ∧ s.at_ (i - 1) = some p ∧ hr.hrs_index = i ∧
        hr.bottom = p.end_) := by
  obtain ⟨hv, hcc, hb⟩ := growShrink_contiguous GrainBytes _ s
    (initialise_valid shift bottom end_ max_length hmax)
    (fun i hi => absurd hi (Nat.not_lt_zero i)) hreach
  have hb' : s._heap_bottom = bottom := hb
  refine ⟨hb', ?_, ?_⟩
  · intro h0
    obtain ⟨hr, h1, h2, h3⟩ := hcc 0 h0
    exact ⟨hr, h1, h2, by rw [h3]; simp [last_end, hb']⟩
  · intro i h0 hi
    obtain ⟨hr, h1, h2, h3⟩ := hcc i hi
    obtain ⟨p, hp⟩ := Option.isSome_iff_exists.mp (hv.2.2.2 (i - 1) (by omega))
    refine ⟨hr, p, h1, hp, h2, ?_⟩
    rw [h3]
    have : i ≠ 0 := by omega
    simp [last_end, this, hp]

/-- Witness for C15: the sample heap grown from empty to five regions, shrunk
by two and grown back by one. -/
theorem contiguity_invariant_witness :
    (8 < 2 ^ 32 ∧ GrowShrink 8 (initialise 3 16 80 8) (sampleState 4 5)) ∧
    ((sampleState 4 5)._heap_bottom = 16 ∧
    (0 < (sampleState 4 5)._allocated_length →
      ∃ hr, (sampleState 4 5).at_ 0 = some hr ∧ hr.hrs_index = 0 ∧ hr.bottom = 16) ∧
    (∀ i, 0 < i → i < (sampleState 4 5)._allocated_length →
      ∃ hr p, (sampleState 4 5).at_ i = some hr ∧ (sampleState 4 5).at_ (i - 1) = some p ∧
        hr.hrs_index = i ∧ hr.bottom = p.end_)) :=
  have hreach : GrowShrink 8 (initialise 3 16 80 8) (sampleState 4 5) :=
    GrowShrink.expand (sampleState 3 5) sampleFactory 40 48 []
      ⟨sampleState 4 5, sampleRegions 3 1, ⟨40, 48⟩, []⟩
      (GrowShrink.shrink (sampleState 5 5) 16 ⟨sampleState 3 5, ⟨40, 56⟩, 2⟩
        (GrowShrink.expand (initialise 3 16 80 8) sampleFactory 16 56 []
          ⟨sampleState 5 5, sampleRegions 0 5, ⟨16, 56⟩,
            [(0, 16), (1, 24), (2, 32), (3, 40), (4, 48)]⟩
          GrowShrink.start sampleFactory_builds (by decide) (by decide))
        (by decide))
      sampleFactory_builds (by decide) (by decide)
  ⟨⟨by decide, hreach⟩, contiguity_invariant 8 3 16 80 8 (sampleState 4 5) (by decide) hreach⟩

end HeapRegionSeq

/-- C20. The function `compare_versions` returns 0 if and only if the detected
triple `(major, minor, patch)` is lexicographically greater than or equal to
the required triple; otherwise it returns -1 when `major < req_major`, -2
when `major = req_major` and `minor < req_minor`, and -3 when
`major = req_major`, `minor = req_minor` and `patch < req_patch`. -/
theorem compare_versions_lex (req_major req_minor req_patch major minor patch : Int) :
    (compare_versions req_major req_minor req_patch major minor patch = 0 ↔
      toLex (req_major, toLex (req_minor, req_patch)) ≤ toLex (major, toLex (minor, patch))) ∧
    (major < req_major →
      compare_versions req_major req_minor req_patch major minor patch = -1) ∧
    (major = req_major → minor < req_minor →
      compare_versions req_major req_minor req_patch major minor patch = -2) ∧
    (major = req_major → minor = req_minor → patch < req_patch →
      compare_versions req_major req_minor req_patch major minor patch = -3) := by
  simp only [Prod.Lex.le_iff, ofLex_toLex]
  unfold compare_versions
  refine ⟨?_, ?_, ?_, ?_⟩
  · constructor
    · intro h
      split_ifs at h <;> omega
    · intro h
      split_ifs <;> omega
  · intro h
    split_ifs <;> omega
  · intro h1 h2
    split_ifs <;> omega
  · intro h1 h2 h3
    split_ifs <;> omega
